import Mathlib

/-!
Verification of the query-range middleware core of the `loki` repository:
the request/response codec, the response merger (including the
non-overlapping ordered stream merge), the limits middleware, the
series-cardinality limiter, the cache-key derivation, and the
parallelism-bounded round-tripper.

The Go sources are shallowly embedded below:
* `pkg/querier/queryrange/codec.go`   — codec, merger, stream merge
* `pkg/querier/queryrange/limits.go`  — cache key, limits middleware,
  series limiter, limited round-tripper

Machine integers (`int64`, `uint32`) are modelled as `Int`/`Nat`; all the
values manipulated by this subsystem (timestamps, limits, counters) are
far from the overflow boundary, so no wrap-around modelling is needed.
Go's truncating integer division on `int64` is `Int.tdiv`.
-/

set_option maxHeartbeats 1000000

namespace LokiQR

/-- Direction of a log query (`logproto.Direction`). -/
inductive Direction
  | FORWARD
  | BACKWARD
deriving DecidableEq, Repr

/-- Rendering of a `Direction`, as the Go generated enum `String` method. -/
def Direction.str : Direction → String
  | .FORWARD => "FORWARD"
  | .BACKWARD => "BACKWARD"

/-- A single log line (`logproto.Entry`): nanosecond timestamp plus text. -/
structure Entry where
  ts : Int
  line : String
deriving DecidableEq, Repr

/-- A log stream (`logproto.Stream`): a label string and its entries. -/
structure Stream where
  labels : String
  entries : List Entry
deriving DecidableEq, Repr

/-! ## Decimal rendering and parsing

Models Go's `fmt.Sprintf("%d", …)` on `int64` values and the inverse
`strconv` parsing used by the wire codecs.  The digit list is produced
with structural fuel so that both the kernel (for concrete witnesses)
and the simplifier reduce it. -/

/-- The character for a single decimal digit (`d < 10`). -/
def digitOf : Nat → Char
  | 0 => '0'
  | 1 => '1'
  | 2 => '2'
  | 3 => '3'
  | 4 => '4'
  | 5 => '5'
  | 6 => '6'
  | 7 => '7'
  | 8 => '8'
  | _ => '9'

/-- The value of a decimal digit character (code points 48–57), `none` on
anything else. -/
def digitVal (c : Char) : Option Nat :=
  if 48 ≤ c.toNat ∧ c.toNat ≤ 57 then some (c.toNat - 48) else none

/-- Decimal digits of a natural number, most significant first.
The first argument is structural fuel; any fuel `> n` is enough. -/
def natDigitsFuel : Nat → Nat → List Char
  | 0, _ => []
  | fuel + 1, n =>
    if n < 10 then [digitOf n]
    else natDigitsFuel fuel (n / 10) ++ [digitOf (n % 10)]

/-- Decimal rendering of a natural number (Go `%d`). -/
def renderNat (n : Nat) : String := String.mk (natDigitsFuel (n + 1) n)

/-- Decimal rendering of an integer (Go `%d` on `int64`). -/
def renderInt : Int → String
  | .ofNat n => renderNat n
  | .negSucc n => "-" ++ renderNat (n + 1)

/-- Accumulator loop of decimal parsing: consumes digit characters. -/
def parseNatGo (acc : Nat) : List Char → Option Nat
  | [] => some acc
  | c :: cs =>
    match digitVal c with
    | some d => parseNatGo (acc * 10 + d) cs
    | none => none

/-- Parse a non-empty all-digit string as a natural number. -/
def parseNat (s : String) : Option Nat :=
  match s.data with
  | [] => none
  | l => parseNatGo 0 l

/-- Parse an optionally `-`-signed decimal string as an integer. -/
def parseInt (s : String) : Option Int :=
  match s.data with
  | [] => none
  | c :: cs =>
    if c = '-' then
      match cs with
      | [] => none
      | l => (parseNatGo 0 l).map (fun n => -(n : Int))
    else (parseNatGo 0 (c :: cs)).map Int.ofNat

theorem digitVal_digitOf (d : Nat) (h : d < 10) : digitVal (digitOf d) = some d := by
  interval_cases d <;> decide

theorem digitOf_ne_dash (d : Nat) (h : d < 10) : digitOf d ≠ '-' := by
  interval_cases d <;> decide

theorem natDigitsFuel_congr (f₁ f₂ n : Nat) (h₁ : n < f₁) (h₂ : n < f₂) :
    natDigitsFuel f₁ n = natDigitsFuel f₂ n := by
  induction f₁ generalizing f₂ n with
  | zero => omega
  | succ f ih =>
    cases f₂ with
    | zero => omega
    | succ g =>
      simp only [natDigitsFuel]
      by_cases hn : n < 10
      · simp [hn]
      · have hdiv : n / 10 < n := Nat.div_lt_self (by omega) (by omega)
        simp only [hn, if_false]
        rw [ih g (n / 10) (by omega) (by omega)]

theorem natDigitsFuel_ne_nil (f n : Nat) (h : n < f) : natDigitsFuel f n ≠ [] := by
  cases f with
  | zero => omega
  | succ g =>
    simp only [natDigitsFuel]
    by_cases hn : n < 10 <;> simp [hn]

theorem natDigitsFuel_mem (f n : Nat) {c : Char} (hc : c ∈ natDigitsFuel f n) :
    ∃ d, d < 10 ∧ c = digitOf d := by
  induction f generalizing n with
  | zero => simp [natDigitsFuel] at hc
  | succ f ih =>
    simp only [natDigitsFuel] at hc
    by_cases hn : n < 10
    · simp [hn] at hc
      exact ⟨n, hn, hc⟩
    · simp [hn] at hc
      rcases hc with hc | hc
      · exact ih (n / 10) hc
      · exact ⟨n % 10, Nat.mod_lt _ (by omega), hc⟩

theorem parseNatGo_append (l₁ l₂ : List Char) (acc a : Nat)
    (h : parseNatGo acc l₁ = some a) :
    parseNatGo acc (l₁ ++ l₂) = parseNatGo a l₂ := by
  induction l₁ generalizing acc with
  | nil => simp [parseNatGo] at h; simp [h]
  | cons c cs ih =>
    simp only [parseNatGo, List.cons_append] at h ⊢
    cases hdv : digitVal c with
    | none => simp [hdv] at h
    | some d => simp only [hdv] at h ⊢; exact ih _ h

theorem parseNatGo_natDigits (n : Nat) :
    ∀ acc, parseNatGo acc (natDigitsFuel (n + 1) n) =
      some (acc * 10 ^ (natDigitsFuel (n + 1) n).length + n) := by
  induction n using Nat.strong_induction_on with
  | _ n ih =>
    intro acc
    by_cases hn : n < 10
    · simp only [natDigitsFuel, hn, if_true, parseNatGo, digitVal_digitOf n hn]
      simp [parseNatGo]
    · have hpos : 0 < n := by omega
      have hdiv : n / 10 < n := Nat.div_lt_self hpos (by omega)
      have hstep : natDigitsFuel (n + 1) n =
          natDigitsFuel (n / 10 + 1) (n / 10) ++ [digitOf (n % 10)] := by
        conv_lhs => rw [natDigitsFuel]
        simp only [hn, if_false]
        rw [natDigitsFuel_congr n (n / 10 + 1) (n / 10) (by omega) (by omega)]
      rw [hstep]
      have hrec := ih (n / 10) hdiv acc
      rw [parseNatGo_append _ _ _ _ hrec]
      simp only [parseNatGo, digitVal_digitOf (n % 10) (Nat.mod_lt _ (by omega))]
      congr 1
      have hlen : (natDigitsFuel (n / 10 + 1) (n / 10) ++ [digitOf (n % 10)]).length =
          (natDigitsFuel (n / 10 + 1) (n / 10)).length + 1 := by simp
      rw [hlen]
      have hmod : 10 * (n / 10) + n % 10 = n := Nat.div_add_mod n 10
      generalize (natDigitsFuel (n / 10 + 1) (n / 10)).length = k
      rw [pow_succ]
      ring_nf
      omega

theorem parseNat_renderNat (n : Nat) : parseNat (renderNat n) = some n := by
  have hne := natDigitsFuel_ne_nil (n + 1) n (by omega)
  have h := parseNatGo_natDigits n 0
  simp only [renderNat, parseNat]
  cases hd : natDigitsFuel (n + 1) n with
  | nil => exact absurd hd hne
  | cons c cs =>
    rw [hd] at h
    simpa using h

theorem parseInt_renderInt (i : Int) : parseInt (renderInt i) = some i := by
  cases i with
  | ofNat n =>
    have hne := natDigitsFuel_ne_nil (n + 1) n (by omega)
    have h := parseNatGo_natDigits n 0
    simp only [renderInt, renderNat, parseInt]
    cases hd : natDigitsFuel (n + 1) n with
    | nil => exact absurd hd hne
    | cons c cs =>
      have hcmem : c ∈ natDigitsFuel (n + 1) n := by rw [hd]; exact List.mem_cons_self _ _
      obtain ⟨d, hd10, hcd⟩ := natDigitsFuel_mem _ _ hcmem
      have hdash : c ≠ '-' := hcd ▸ digitOf_ne_dash d hd10
      rw [hd] at h
      simp only [hdash, if_false]
      simpa using h
  | negSucc n =>
    have hne := natDigitsFuel_ne_nil (n + 2) (n + 1) (by omega)
    have h := parseNatGo_natDigits (n + 1) 0
    simp only [renderInt, renderNat, parseInt]
    have hdata : ("-" ++ String.mk (natDigitsFuel (n + 2) (n + 1))).data =
        '-' :: natDigitsFuel (n + 2) (n + 1) := by
      simp [String.data_append]
    rw [hdata]
    simp only [if_pos rfl]
    cases hd : natDigitsFuel (n + 2) (n + 1) with
    | nil => exact absurd hd hne
    | cons c cs =>
      rw [hd] at h
      simp only [h, Option.map_some]
      simp [Int.negSucc_eq]

/-! ## Typed requests (codec.go)

The four request variants.  Wall-clock instants (`time.Time`) are kept as
their `UnixNano` integer value; the public getters expose milliseconds by
truncating division, exactly as `GetStart`/`GetEnd` do
(`UnixNano() / (int64(time.Millisecond)/int64(time.Nanosecond))`). -/

/-- `LokiRequest` (range query). `stepMs` is stored in milliseconds. -/
structure LokiRequest where
  query : String
  limit : Nat
  direction : Direction
  startNs : Int
  endNs : Int
  stepMs : Int
  path : String
  shards : List String
deriving DecidableEq, Repr

/-- `LokiInstantRequest`. -/
structure LokiInstantRequest where
  query : String
  limit : Nat
  direction : Direction
  timeNs : Int
  path : String
  shards : List String
deriving DecidableEq, Repr

/-- `LokiSeriesRequest`. `matchGroups` is the `Match` field. -/
structure LokiSeriesRequest where
  matchGroups : List String
  startNs : Int
  endNs : Int
  path : String
  shards : List String
deriving DecidableEq, Repr

/-- `LokiLabelNamesRequest`. -/
structure LokiLabelNamesRequest where
  startNs : Int
  endNs : Int
  path : String
deriving DecidableEq, Repr

/-- The `queryrange.Request` interface value: one of the four variants. -/
inductive Request
  | range (r : LokiRequest)
  | instant (r : LokiInstantRequest)
  | series (r : LokiSeriesRequest)
  | labelNames (r : LokiLabelNamesRequest)
deriving DecidableEq, Repr

/-- Nanoseconds to milliseconds, Go truncating `int64` division. -/
def nsToMs (ns : Int) : Int := Int.tdiv ns 1000000

/-- Milliseconds to nanoseconds (`s * int64(time.Millisecond)`). -/
def msToNs (ms : Int) : Int := ms * 1000000

/-- `GetStart` of each variant, in milliseconds. -/
def Request.getStart : Request → Int
  | .range r => nsToMs r.startNs
  | .instant r => nsToMs r.timeNs
  | .series r => nsToMs r.startNs
  | .labelNames r => nsToMs r.startNs

/-- `GetEnd` of each variant, in milliseconds. -/
def Request.getEnd : Request → Int
  | .range r => nsToMs r.endNs
  | .instant r => nsToMs r.timeNs
  | .series r => nsToMs r.endNs
  | .labelNames r => nsToMs r.endNs

/-- `GetQuery`: empty for the series and label-names variants. -/
def Request.getQuery : Request → String
  | .range r => r.query
  | .instant r => r.query
  | .series _ => ""
  | .labelNames _ => ""

/-- `GetStep` in milliseconds: zero except for range requests. -/
def Request.getStep : Request → Int
  | .range r => r.stepMs
  | _ => 0

/-- The `Path` field of each variant. -/
def Request.getPath : Request → String
  | .range r => r.path
  | .instant r => r.path
  | .series r => r.path
  | .labelNames r => r.path

/-- `WithStartEnd(s, e)` (milliseconds): clones the request with new
timestamps `time.Unix(0, s*int64(time.Millisecond))`.  The instant
variant only stores `s` into its single timestamp. -/
def Request.withStartEnd (r : Request) (s e : Int) : Request :=
  match r with
  | .range q => .range { q with startNs := msToNs s, endNs := msToNs e }
  | .instant q => .instant { q with timeNs := msToNs s }
  | .series q => .series { q with startNs := msToNs s, endNs := msToNs e }
  | .labelNames q => .labelNames { q with startNs := msToNs s, endNs := msToNs e }

theorem nsToMs_msToNs (ms : Int) : nsToMs (msToNs ms) = ms := by
  simp only [nsToMs, msToNs]
  exact Int.mul_tdiv_cancel ms (by norm_num)

/-! ## Cache key (limits.go, `cacheKeyLimits.GenerateCacheKey`)

`split` is the resolved `QuerySplitDuration(userID)`, a `time.Duration`,
i.e. an `int64` count of nanoseconds.  `split / time.Millisecond` is Go
integer division; the final `fmt.Sprintf("%d", split)` prints the raw
nanosecond count. -/

/-- `GenerateCacheKey(userID, r)` with the resolved split duration
(`splitNs`, nanoseconds) passed explicitly. -/
def generateCacheKey (userID : String) (splitNs : Int) (r : Request) : String :=
  let currentInterval := Int.tdiv r.getStart (Int.tdiv splitNs 1000000)
  userID ++ ":" ++ r.getQuery ++ ":" ++ renderInt r.getStep ++ ":" ++
    renderInt currentInterval ++ ":" ++ renderInt splitNs

theorem tdiv_eq_fdiv_of_nonneg (a b : Int) (ha : 0 ≤ a) (hb : 0 ≤ b) :
    Int.tdiv a b = Int.fdiv a b := by
  obtain ⟨m, rfl⟩ := Int.eq_ofNat_of_zero_le ha
  obtain ⟨k, rfl⟩ := Int.eq_ofNat_of_zero_le hb
  change Int.tdiv (Int.ofNat m) (Int.ofNat k) = Int.fdiv (Int.ofNat m) (Int.ofNat k)
  cases m with
  | zero => simp [Int.tdiv, Int.fdiv]
  | succ m => rfl

/-- C2 (amended): for a range request at start `startMs ≥ 0` with a
positive whole-millisecond split `splitMs`, the cache key is
`tenant:query:step_ms:floor(start_ms/split_ms):split_ns` — the final
component is the split duration in nanoseconds, not milliseconds. -/
theorem c2_cache_key_schema (user q path : String) (stepMs startMs splitMs endNs : Int)
    (limit : Nat) (dir : Direction) (shards : List String)
    (hstart : 0 ≤ startMs) (hsplit : 0 < splitMs) :
    generateCacheKey user (splitMs * 1000000)
      (Request.range ⟨q, limit, dir, msToNs startMs, endNs, stepMs, path, shards⟩) =
    user ++ ":" ++ q ++ ":" ++ renderInt stepMs ++ ":" ++
      renderInt (Int.fdiv startMs splitMs) ++ ":" ++ renderInt (splitMs * 1000000) := by
  have hcancel : Int.tdiv (splitMs * 1000000) 1000000 = splitMs :=
    Int.mul_tdiv_cancel splitMs (by norm_num)
  have hget : (Request.range ⟨q, limit, dir, msToNs startMs, endNs, stepMs, path, shards⟩).getStart
      = startMs := by
    simp [Request.getStart, nsToMs_msToNs]
  simp only [generateCacheKey, hcancel, hget, Request.getQuery, Request.getStep,
    tdiv_eq_fdiv_of_nonneg startMs splitMs hstart (le_of_lt hsplit)]

/-- C2 witness: the spec's second example (`split = 60s`), with the split
rendered in nanoseconds. -/
theorem c2_cache_key_witness :
    generateCacheKey "t" (60000 * 1000000)
      (Request.range ⟨"\x7ba=1\x7d", 100, Direction.BACKWARD, msToNs 60000, 60000000000,
        15000, "/loki/api/v1/query_range", []⟩) =
    "t" ++ ":" ++ "\x7ba=1\x7d" ++ ":" ++ renderInt 15000 ++ ":" ++
      renderInt (Int.fdiv 60000 60000) ++ ":" ++ renderInt (60000 * 1000000) :=
  c2_cache_key_schema "t" "\x7ba=1\x7d" "/loki/api/v1/query_range" 15000 60000 60000
    60000000000 100 Direction.BACKWARD [] (by norm_num) (by norm_num)

/-- C2 counterexample: at the spec's literal example (tenant `t`,
query `{a=1}`, step 15000 ms, start 60000 ms, split 30 s) the key ends in
`30000000000` (nanoseconds), not in `30000` as the claim states. -/
theorem c2_cache_key_counterexample :
    generateCacheKey "t" 30000000000
        (Request.range ⟨"\x7ba=1\x7d", 100, Direction.BACKWARD, 60000000000, 60000000000,
          15000, "/loki/api/v1/query_range", []⟩) =
      "t:\x7ba=1\x7d:15000:2:30000000000" ∧
    generateCacheKey "t" 30000000000
        (Request.range ⟨"\x7ba=1\x7d", 100, Direction.BACKWARD, 60000000000, 60000000000,
          15000, "/loki/api/v1/query_range", []⟩) ≠
      "t:\x7ba=1\x7d:15000:2:30000" := by
  constructor
  · decide
  · decide

/-! ## Typed responses (codec.go)

Statistics and HTTP headers are carried opaquely by the Go structs and
play no role in the verified claims; they are omitted from the embedding.
Sample values are `float64` in Go and are likewise not modelled — only
timestamps and labels matter to the merger and the series limiter. -/

/-- One sample of a metric stream (value not modelled). -/
structure Sample where
  timestampMs : Int
deriving DecidableEq, Repr

/-- `queryrange.SampleStream`: a labelled series of samples. -/
structure SampleStream where
  labels : List (String × String)
  samples : List Sample
deriving DecidableEq, Repr

/-- `queryrange.PrometheusData`. -/
structure PromData where
  resultType : String
  result : List SampleStream
deriving DecidableEq, Repr

/-- `LokiPromResponse` (wrapping a `PrometheusResponse`). -/
structure LokiPromResponse where
  status : String
  data : PromData
deriving DecidableEq, Repr

/-- `LokiResponse` (log streams). -/
structure LokiResponse where
  status : String
  direction : Direction
  limit : Nat
  version : Nat
  errorType : String
  errorMsg : String
  resultType : String
  result : List Stream
deriving DecidableEq, Repr

/-- `logproto.SeriesIdentifier`: a label map. -/
structure SeriesIdentifier where
  labels : List (String × String)
deriving DecidableEq, Repr

/-- `LokiSeriesResponse`. -/
structure LokiSeriesResponse where
  status : String
  version : Nat
  data : List SeriesIdentifier
deriving DecidableEq, Repr

/-- `LokiLabelNamesResponse`. -/
structure LokiLabelNamesResponse where
  status : String
  version : Nat
  data : List String
deriving DecidableEq, Repr

/-- The `queryrange.Response` interface value: one of the four variants. -/
inductive Response
  | prom (r : LokiPromResponse)
  | logs (r : LokiResponse)
  | series (r : LokiSeriesResponse)
  | labelNames (r : LokiLabelNamesResponse)
deriving DecidableEq, Repr

/-- Error kinds surfaced by the middleware and codec paths. -/
inductive QErr
  | badRequest
  | queryTooLong
  | tooManySeries
  | internalErr
deriving DecidableEq, Repr

/-- Modelled from the spec: `loghttp.GetVersion` — the Legacy wire version
is selected when the request path matches `/api/prom/*`, V1 otherwise. -/
def getVersion (path : String) : Nat :=
  if "/api/prom/".data.isPrefixOf path.data then 0 else 1

/-- `NewEmptyResponse` (codec.go).  The LogQL parser is the injected
Parser collaborator (not part of this subsystem); it is passed as a
function: `none` = parse error, `some b` with `b` = `is_sample_expr`. -/
def newEmptyResponse (parse : String → Option Bool) : Request → Except QErr Response
  | .series r => .ok (.series ⟨"success", getVersion r.path, []⟩)
  | .labelNames r => .ok (.labelNames ⟨"success", getVersion r.path, []⟩)
  | .instant _ => .ok (.prom ⟨"success", ⟨"vector", []⟩⟩)
  | .range r =>
    match parse r.query with
    | none => .error .badRequest
    | some true => .ok (.prom ⟨"success", ⟨"matrix", []⟩⟩)
    | some false =>
      .ok (.logs ⟨"success", r.direction, r.limit, getVersion r.path, "", "", "streams", []⟩)

/-! ## Limits middleware (limits.go, `limitsMiddleware.Do`)

The per-tenant limits are already resolved
(`SmallestPositiveNonZeroDurationPerTenant`) and passed as parameters.
The middleware either short-circuits with a response, fails, or forwards
a (possibly rewritten) request to the next handler; the three cases are
made explicit so that "the next handler is not called" is expressible. -/

/-- Result of running the limits middleware up to the point where it
would call `next`. -/
inductive MWOutcome
  | shortCircuit (resp : Response)
  | failure (e : QErr)
  | forward (r : Request)
deriving DecidableEq, Repr

/-- The max-query-length enforcement tail of `limitsMiddleware.Do`:
`queryLen := Time(end).Sub(Time(start))`, rejected when it exceeds
`maxQueryLength` (both compared in nanoseconds). -/
def lengthCheck (maxLengthNs : Int) (r : Request) : MWOutcome :=
  if 0 < maxLengthNs ∧ maxLengthNs < (r.getEnd - r.getStart) * 1000000 then
    .failure .queryTooLong
  else .forward r

/-- `limitsMiddleware.Do` (limits.go lines 110-156): lookback
short-circuit, start clamping, then the length check. `nowNs` is
`time.Now().UnixNano()`. -/
def limitsMiddlewareDo (parse : String → Option Bool)
    (maxLookbackNs maxLengthNs nowNs : Int) (r : Request) : MWOutcome :=
  if 0 < maxLookbackNs then
    let minStartMs := nsToMs (nowNs - maxLookbackNs)
    if r.getEnd < minStartMs then
      match newEmptyResponse parse r with
      | .ok resp => .shortCircuit resp
      | .error e => .failure e
    else
      let r2 := if r.getStart < minStartMs then r.withStartEnd minStartMs r.getEnd else r
      lengthCheck maxLengthNs r2
  else lengthCheck maxLengthNs r

/-- Does the response shape match the request variant?  Range queries may
legitimately produce either a metric or a log-stream response. -/
def respMatchesVariant : Request → Response → Bool
  | .series _, .series _ => true
  | .labelNames _, .labelNames _ => true
  | .instant _, .prom _ => true
  | .range _, .prom _ => true
  | .range _, .logs _ => true
  | _, _ => false

/-- Is the payload of the response empty? -/
def Response.isEmptyData : Response → Bool
  | .prom p => p.data.result.isEmpty
  | .logs l => l.result.isEmpty
  | .series s => s.data.isEmpty
  | .labelNames l => l.data.isEmpty

/-- For a range request, the LogQL query must parse (the empty-response
constructor runs the parser); vacuous for the other variants. -/
def rangeParses (parse : String → Option Bool) : Request → Prop
  | .range q => parse q.query ≠ none
  | _ => True

/-- C4 (amended): with resolved `max_lookback > 0`, (a) a request ending
before `now - max_lookback` is answered with an empty response of a
shape matching the variant, without calling next — provided a range
query's LogQL parses (otherwise `NewEmptyResponse` fails with
BadRequest); (b) a request that survives the short-circuit but starts
before `now - max_lookback` is forwarded with its start rewritten to
exactly `now - max_lookback` (ms) and its end unchanged — provided the
subsequent max-length check passes. -/
theorem c4_lookback_clamp (parse : String → Option Bool)
    (look len now : Int) (r : Request) (hlook : 0 < look) :
    (r.getEnd < nsToMs (now - look) → rangeParses parse r →
      ∃ resp, limitsMiddlewareDo parse look len now r = .shortCircuit resp ∧
        respMatchesVariant r resp = true ∧ resp.isEmptyData = true) ∧
    (nsToMs (now - look) ≤ r.getEnd → r.getStart < nsToMs (now - look) →
      (0 < len →
        ((r.withStartEnd (nsToMs (now - look)) r.getEnd).getEnd -
          (r.withStartEnd (nsToMs (now - look)) r.getEnd).getStart) * 1000000 ≤ len) →
      limitsMiddlewareDo parse look len now r =
        .forward (r.withStartEnd (nsToMs (now - look)) r.getEnd) ∧
      (r.withStartEnd (nsToMs (now - look)) r.getEnd).getStart = nsToMs (now - look) ∧
      (r.withStartEnd (nsToMs (now - look)) r.getEnd).getEnd = r.getEnd) := by
  constructor
  · intro hend hparse
    simp only [limitsMiddlewareDo, if_pos hlook, if_pos hend]
    cases r with
    | range q =>
      simp only [rangeParses] at hparse
      cases hq : parse q.query with
      | none => exact absurd hq hparse
      | some b =>
        cases b <;>
          simp [newEmptyResponse, hq, respMatchesVariant, Response.isEmptyData]
    | instant q => simp [newEmptyResponse, respMatchesVariant, Response.isEmptyData]
    | series q => simp [newEmptyResponse, respMatchesVariant, Response.isEmptyData]
    | labelNames q => simp [newEmptyResponse, respMatchesVariant, Response.isEmptyData]
  · intro hend hstart hlen
    have hend2 : (r.withStartEnd (nsToMs (now - look)) r.getEnd).getEnd = r.getEnd := by
      cases r with
      | range q => simp [Request.withStartEnd, Request.getEnd, nsToMs_msToNs]
      | instant q =>
        exfalso
        simp [Request.getStart, Request.getEnd] at hend hstart
        omega
      | series q => simp [Request.withStartEnd, Request.getEnd, nsToMs_msToNs]
      | labelNames q => simp [Request.withStartEnd, Request.getEnd, nsToMs_msToNs]
    have hstart2 : (r.withStartEnd (nsToMs (now - look)) r.getEnd).getStart =
        nsToMs (now - look) := by
      cases r with
      | range q => simp [Request.withStartEnd, Request.getStart, nsToMs_msToNs]
      | instant q => simp [Request.withStartEnd, Request.getStart, nsToMs_msToNs]
      | series q => simp [Request.withStartEnd, Request.getStart, nsToMs_msToNs]
      | labelNames q => simp [Request.withStartEnd, Request.getStart, nsToMs_msToNs]
    refine ⟨?_, hstart2, hend2⟩
    simp only [limitsMiddlewareDo, if_pos hlook, if_neg (not_lt.mpr hend), if_pos hstart,
      lengthCheck, hend2, hstart2]
    by_cases hl : 0 < len
    · have := hlen hl
      rw [if_neg]
      push_neg
      intro
      omega
    · rw [if_neg]
      push_neg
      intro h
      exact absurd h hl

/-- C4 witness: the spec's lookback-clamp scenario (`now=1000s`,
lookback `60s`, label-names request `start=900s, end=999s`) is forwarded
with `start` rewritten to `940s` and `end` unchanged. -/
theorem c4_lookback_clamp_witness :
    limitsMiddlewareDo (fun _ => some false) 60000000000 0 1000000000000
        (Request.labelNames ⟨900000000000, 999000000000, "/loki/api/v1/labels"⟩) =
      .forward ((Request.labelNames ⟨900000000000, 999000000000, "/loki/api/v1/labels"⟩).withStartEnd
        (nsToMs (1000000000000 - 60000000000))
        (Request.labelNames ⟨900000000000, 999000000000, "/loki/api/v1/labels"⟩).getEnd) ∧
    ((Request.labelNames ⟨900000000000, 999000000000, "/loki/api/v1/labels"⟩).withStartEnd
        (nsToMs (1000000000000 - 60000000000))
        (Request.labelNames ⟨900000000000, 999000000000, "/loki/api/v1/labels"⟩).getEnd).getStart =
      nsToMs (1000000000000 - 60000000000) := by
  have h := (c4_lookback_clamp (fun _ => some false) 60000000000 0 1000000000000
    (Request.labelNames ⟨900000000000, 999000000000, "/loki/api/v1/labels"⟩)
    (by norm_num)).2 (by decide) (by decide) (by intro h; exact absurd h (by norm_num))
  exact ⟨h.1, h.2.1⟩

/-- C4 counterexample: with `max_lookback = 60s > 0`, `now = 1000s`,
`max_length = 30s`, a label-names request `start=0, end=999s` has
`end ≥ now - lookback` and `start < now - lookback`, yet the middleware
does not delegate a clamped request to next — the post-clamp length
check rejects it with QueryTooLong first. -/
theorem c4_lookback_clamp_counterexample :
    limitsMiddlewareDo (fun _ => some false) 60000000000 30000000000 1000000000000
        (Request.labelNames ⟨0, 999000000000, "/loki/api/v1/labels"⟩) =
      .failure .queryTooLong ∧
    (Request.labelNames ⟨0, 999000000000, "/loki/api/v1/labels"⟩ : Request).getStart <
      nsToMs (1000000000000 - 60000000000) ∧
    nsToMs (1000000000000 - 60000000000) ≤
      (Request.labelNames ⟨0, 999000000000, "/loki/api/v1/labels"⟩ : Request).getEnd := by
  refine ⟨by decide, by decide, by decide⟩

/-- C8 (amended): the max-length check applies to the request as it
stands after lookback clamping, and only when the lookback
short-circuit did not fire: with resolved `max_length > 0`, if the
post-clamp range exceeds `max_length` the middleware fails with
BadRequest(QueryTooLong) and does not call the next handler. -/
theorem c8_query_too_long (parse : String → Option Bool)
    (look len now : Int) (r r2 : Request) (hlen : 0 < len)
    (hnoshort : 0 < look → nsToMs (now - look) ≤ r.getEnd)
    (hr2 : r2 = if 0 < look ∧ r.getStart < nsToMs (now - look) then
      r.withStartEnd (nsToMs (now - look)) r.getEnd else r)
    (htoolong : len < (r2.getEnd - r2.getStart) * 1000000) :
    limitsMiddlewareDo parse look len now r = .failure .queryTooLong := by
  by_cases hlook : 0 < look
  · have hend := hnoshort hlook
    simp only [limitsMiddlewareDo, if_pos hlook, if_neg (not_lt.mpr hend)]
    by_cases hstart : r.getStart < nsToMs (now - look)
    · rw [if_pos hstart]
      have hr2e : r2 = r.withStartEnd (nsToMs (now - look)) r.getEnd := by
        rw [hr2, if_pos ⟨hlook, hstart⟩]
      rw [← hr2e]
      simp only [lengthCheck]
      rw [if_pos ⟨hlen, htoolong⟩]
    · rw [if_neg hstart]
      have hr2e : r2 = r := by
        rw [hr2, if_neg]
        intro hc
        exact hstart hc.2
      rw [← hr2e]
      simp only [lengthCheck]
      rw [if_pos ⟨hlen, htoolong⟩]
  · have hr2e : r2 = r := by
      rw [hr2, if_neg]
      intro hc
      exact hlook hc.1
    simp only [limitsMiddlewareDo, if_neg hlook, lengthCheck, ← hr2e]
    rw [if_pos ⟨hlen, htoolong⟩]

/-- C8 witness: with lookback disabled, a label-names request spanning
999 s against `max_length = 30s` is rejected with QueryTooLong. -/
theorem c8_query_too_long_witness :
    limitsMiddlewareDo (fun _ => some false) 0 30000000000 1000000000000
        (Request.labelNames ⟨0, 999000000000, "/loki/api/v1/labels"⟩) =
      .failure .queryTooLong :=
  c8_query_too_long (fun _ => some false) 0 30000000000 1000000000000
    (Request.labelNames ⟨0, 999000000000, "/loki/api/v1/labels"⟩)
    (Request.labelNames ⟨0, 999000000000, "/loki/api/v1/labels"⟩)
    (by norm_num) (by intro h; exact absurd h (by norm_num)) (by decide) (by decide)

/-- C8 counterexample: `max_length = 70s > 0`, lookback `60s`,
`now = 1000s`, request `start=0, end=999s`: the original range
(999 s) exceeds `max_length`, yet the middleware forwards the clamped
request (post-clamp range 59 s) instead of failing with QueryTooLong. -/
theorem c8_query_too_long_counterexample :
    limitsMiddlewareDo (fun _ => some false) 60000000000 70000000000 1000000000000
        (Request.labelNames ⟨0, 999000000000, "/loki/api/v1/labels"⟩) =
      .forward (Request.labelNames ⟨940000000000, 999000000000, "/loki/api/v1/labels"⟩) ∧
    (0:Int) < 70000000000 ∧
    (70000000000:Int) <
      ((Request.labelNames ⟨0, 999000000000, "/loki/api/v1/labels"⟩ : Request).getEnd -
        (Request.labelNames ⟨0, 999000000000, "/loki/api/v1/labels"⟩ : Request).getStart) *
        1000000 := by
  refine ⟨by decide, by norm_num, by decide⟩

/-! ## Series limiter (limits.go, `seriesLimiter.Do` / `isLimitReached`)

One `seriesLimiter` serves the sub-requests of a single outer request.
The claims describe its sequential observable behaviour, so the run is
modelled as a fold over the list of sub-request results (what `next`
would return for each sub-request, in order).  The label hash
(`labels.HashWithoutLabels` with no exclusions, on code not under this
package) is passed as a function parameter `h`. -/

/-- What `next.Do` returns for one sub-request. -/
inductive SubResult
  | errRes
  | okRes (resp : Response)
deriving DecidableEq, Repr

/-- Observable outcome of `seriesLimiter.Do` for one sub-request. -/
inductive SLOutcome
  | rejectedPre
  | rejectedPost
  | passed (res : SubResult)
deriving DecidableEq, Repr

/-- The hashes of the result streams of a prom response. -/
def labelsHashes (h : List (String × String) → Nat) (p : LokiPromResponse) : List Nat :=
  p.data.result.map (fun s => h s.labels)

/-- One invocation of `seriesLimiter.Do`: pre-check (`isLimitReached`,
i.e. `len(hashes) > maxSeries`), dispatch, ingest prom stream hashes,
post-check. -/
def seriesLimiterStep (h : List (String × String) → Nat) (maxSeries : Nat)
    (st : Finset Nat) (sub : SubResult) : SLOutcome × Finset Nat :=
  if maxSeries < st.card then (.rejectedPre, st)
  else
    match sub with
    | .errRes => (.passed .errRes, st)
    | .okRes resp =>
      match resp with
      | .prom p =>
        let st2 := (labelsHashes h p).foldl (fun s x => insert x s) st
        if maxSeries < st2.card then (.rejectedPost, st2)
        else (.passed (.okRes (.prom p)), st2)
      | other => (.passed (.okRes other), st)

/-- The trace of a sequence of sub-requests through one `seriesLimiter`:
for each sub-request, its outcome and the hash set after it. -/
def seriesLimiterRun (h : List (String × String) → Nat) (maxSeries : Nat)
    (st : Finset Nat) : List SubResult → List (SLOutcome × Finset Nat)
  | [] => []
  | s :: ss =>
    let p := seriesLimiterStep h maxSeries st s
    p :: seriesLimiterRun h maxSeries p.2 ss

theorem subset_foldl_insert (l : List Nat) (st : Finset Nat) :
    st ⊆ l.foldl (fun s x => insert x s) st := by
  induction l generalizing st with
  | nil => simp
  | cons x xs ih =>
    intro a ha
    exact ih (insert x st) (Finset.mem_insert_of_mem ha)

theorem seriesLimiterStep_iff (h : List (String × String) → Nat) (maxSeries : Nat)
    (st : Finset Nat) (sub : SubResult) :
    ((seriesLimiterStep h maxSeries st sub).1 = .rejectedPre ∨
      (seriesLimiterStep h maxSeries st sub).1 = .rejectedPost) ↔
    maxSeries < (seriesLimiterStep h maxSeries st sub).2.card := by
  by_cases hpre : maxSeries < st.card
  · simp [seriesLimiterStep, hpre]
  · cases sub with
    | errRes => simp [seriesLimiterStep, hpre]
    | okRes resp =>
      cases resp with
      | prom p =>
        by_cases hpost :
            maxSeries < ((labelsHashes h p).foldl (fun s x => insert x s) st).card
        · simp [seriesLimiterStep, hpre, hpost]
        · simp [seriesLimiterStep, hpre, hpost]
      | logs x => simp [seriesLimiterStep, hpre]
      | series x => simp [seriesLimiterStep, hpre]
      | labelNames x => simp [seriesLimiterStep, hpre]

theorem seriesLimiterStep_pre (h : List (String × String) → Nat) (maxSeries : Nat)
    (st : Finset Nat) (sub : SubResult) (hfull : maxSeries < st.card) :
    seriesLimiterStep h maxSeries st sub = (.rejectedPre, st) := by
  simp [seriesLimiterStep, hfull]

theorem seriesLimiterRun_length (h : List (String × String) → Nat) (maxSeries : Nat)
    (st : Finset Nat) (subs : List SubResult) :
    (seriesLimiterRun h maxSeries st subs).length = subs.length := by
  induction subs generalizing st with
  | nil => rfl
  | cons s ss ih => simp [seriesLimiterRun, ih]

theorem seriesLimiterRun_all_pre (h : List (String × String) → Nat) (maxSeries : Nat)
    (subs : List SubResult) :
    ∀ (st : Finset Nat), maxSeries < st.card →
      ∀ (k : Nat) (o : SLOutcome × Finset Nat),
        (seriesLimiterRun h maxSeries st subs).get? k = some o → o.1 = .rejectedPre := by
  induction subs with
  | nil => intro st hst k o hk; simp [seriesLimiterRun] at hk
  | cons s ss ih =>
    intro st hst k o hk
    rw [seriesLimiterRun] at hk
    rw [seriesLimiterStep_pre h maxSeries st s hst] at hk
    cases k with
    | zero =>
      simp only [List.get?] at hk
      cases hk
      rfl
    | succ k =>
      simp only [List.get?] at hk
      exact ih st hst k o hk

theorem seriesLimiterRun_iff (h : List (String × String) → Nat) (maxSeries : Nat)
    (subs : List SubResult) :
    ∀ (st : Finset Nat) (k : Nat) (o : SLOutcome × Finset Nat),
      (seriesLimiterRun h maxSeries st subs).get? k = some o →
      ((o.1 = .rejectedPre ∨ o.1 = .rejectedPost) ↔ maxSeries < o.2.card) := by
  induction subs with
  | nil => intro st k o hk; simp [seriesLimiterRun] at hk
  | cons s ss ih =>
    intro st k o hk
    rw [seriesLimiterRun] at hk
    cases k with
    | zero =>
      simp only [List.get?] at hk
      cases hk
      exact seriesLimiterStep_iff h maxSeries st s
    | succ k =>
      simp only [List.get?] at hk
      exact ih (seriesLimiterStep h maxSeries st s).2 k o hk

/-- C5: over the sub-requests handled by a single series limiter with
threshold `maxSeries`, (a) a sub-request fails with
BadRequest(TooManySeries) exactly when the accumulated set of distinct
stream-label hashes (after ingesting that sub-request's response) has
size strictly greater than `maxSeries` — so up to `maxSeries + 1`
distinct series can be observed before rejection; (b) once the
threshold has been exceeded, every later sub-request is rejected by the
pre-check, before being dispatched to the next handler. -/
theorem c5_series_limiter (h : List (String × String) → Nat) (maxSeries : Nat)
    (subs : List SubResult) :
    (∀ (k : Nat) (o : SLOutcome × Finset Nat),
      (seriesLimiterRun h maxSeries ∅ subs).get? k = some o →
      ((o.1 = .rejectedPre ∨ o.1 = .rejectedPost) ↔ maxSeries < o.2.card)) ∧
    (∀ (i j : Nat) (oi oj : SLOutcome × Finset Nat), i < j →
      (seriesLimiterRun h maxSeries ∅ subs).get? i = some oi →
      (seriesLimiterRun h maxSeries ∅ subs).get? j = some oj →
      maxSeries < oi.2.card → oj.1 = .rejectedPre) := by
  constructor
  · exact seriesLimiterRun_iff h maxSeries subs ∅
  · suffices haux : ∀ (ss : List SubResult) (st : Finset Nat) (i j : Nat)
        (oi oj : SLOutcome × Finset Nat), i < j →
        (seriesLimiterRun h maxSeries st ss).get? i = some oi →
        (seriesLimiterRun h maxSeries st ss).get? j = some oj →
        maxSeries < oi.2.card → oj.1 = .rejectedPre by
      intro i j oi oj hij hi hj hcard
      exact haux subs ∅ i j oi oj hij hi hj hcard
    intro ss
    induction ss with
    | nil => intro st i j oi oj hij hi hj hcard; simp [seriesLimiterRun] at hi
    | cons s tail ih =>
      intro st i j oi oj hij hi hj hcard
      rw [seriesLimiterRun] at hi hj
      cases i with
      | zero =>
        cases j with
        | zero => omega
        | succ j =>
          simp only [List.get?] at hi hj
          cases hi
          exact seriesLimiterRun_all_pre h maxSeries tail
            (seriesLimiterStep h maxSeries st s).2 hcard j oj hj
      | succ i =>
        cases j with
        | zero => omega
        | succ j =>
          simp only [List.get?] at hi hj
          exact ih (seriesLimiterStep h maxSeries st s).2 i j oi oj (by omega) hi hj hcard

/-- C5 witness: with `maxSeries = 1` and a first sub-response carrying
two distinct series, the first sub-request is rejected after ingesting
(2 > 1 distinct hashes observed) and the second is rejected by the
pre-check before dispatch. -/
theorem c5_series_limiter_witness :
    ∃ oj : SLOutcome × Finset Nat,
      (seriesLimiterRun (fun ls => ls.length) 1 ∅
        [SubResult.okRes (Response.prom ⟨"success", ⟨"matrix",
          [⟨[("a", "1")], []⟩, ⟨[("a", "1"), ("b", "2")], []⟩]⟩⟩),
         SubResult.errRes]).get? 1 = some oj ∧ oj.1 = SLOutcome.rejectedPre := by
  refine ⟨(SLOutcome.rejectedPre, insert 2 (insert 1 (∅ : Finset Nat))), rfl, ?_⟩
  exact (c5_series_limiter (fun ls => ls.length) 1
    [SubResult.okRes (Response.prom ⟨"success", ⟨"matrix",
      [⟨[("a", "1")], []⟩, ⟨[("a", "1"), ("b", "2")], []⟩]⟩⟩), SubResult.errRes]).2
    0 1 ((SLOutcome.rejectedPost, insert 2 (insert 1 (∅ : Finset Nat))))
    ((SLOutcome.rejectedPre, insert 2 (insert 1 (∅ : Finset Nat))))
    (by decide) rfl rfl (by decide)

/-! ## Ordered non-overlapping stream merge (codec.go,
`mergeOrderedNonOverlappingStreams`)

The grouping loop, the early break on `total >= limit`, the sorted key
order, the `total <= limit` escape hatch and the bounded heap drain are
embedded from the source.  Two helpers live outside the packaged
sources and are modelled from the spec (§4.6.1): `byDir.merge` — a
k-way merge of the marker runs by timestamp, direction-respecting,
stable on insertion order — and the `priorityqueue` keyed by the
direction-respecting comparator over `(timestamp, label)`. -/

/-- The direction-respecting entry comparator: `FORWARD` = ascending
timestamps, `BACKWARD` = descending. -/
def entryLE (d : Direction) (a b : Entry) : Bool :=
  match d with
  | .FORWARD => decide (a.ts ≤ b.ts)
  | .BACKWARD => decide (b.ts ≤ a.ts)

/-- Stable binary merge of two entry runs under a boolean comparator
(ties keep the left — earlier inserted — run first). -/
def mergeEntries (le : Entry → Entry → Bool) : List Entry → List Entry → List Entry
  | [], ys => ys
  | x :: xs, [] => x :: xs
  | x :: xs, y :: ys =>
    if le x y then x :: mergeEntries le xs (y :: ys)
    else y :: mergeEntries le (x :: xs) ys
termination_by xs ys => xs.length + ys.length

/-- Modelled from the spec: `byDir.merge` (not under the packaged
sources) — k-way merge of a label's marker runs by timestamp,
direction-respecting, with a stable tie-break on insertion order;
realised as a left fold of stable binary merges. -/
def byDirMerge (d : Direction) (markers : List (List Entry)) : List Entry :=
  markers.foldl (fun acc m => mergeEntries (entryLE d) acc m) []

/-- The `groups` map of the merge, as an association list in first
insertion order: label ↦ its marker runs. -/
abbrev Groups := List (String × List (List Entry))

/-- Append one stream's entries as a new marker of its label's group. -/
def addMarker : Groups → String → List Entry → Groups
  | [], lab, es => [(lab, [es])]
  | (k, ms) :: rest, lab, es =>
    if k = lab then (k, ms ++ [es]) :: rest
    else (k, ms) :: addMarker rest lab es

/-- The marker runs recorded for a label. -/
def lookupMarkers : Groups → String → List (List Entry)
  | [], _ => []
  | (k, ms) :: rest, lab => if k = lab then ms else lookupMarkers rest lab

/-- Ingest the streams of one response into `(groups, total)`. -/
def ingestResp (st : Groups × Nat) (streams : List Stream) : Groups × Nat :=
  streams.foldl (fun p s => (addMarker p.1 s.labels s.entries, p.2 + s.entries.length)) st

/-- Ingest responses in order, stopping after the response that brings
`total` to `limit` or beyond (the source's early `break`). -/
def ingest (limit : Nat) : List LokiResponse → Groups × Nat → Groups × Nat
  | [], st => st
  | r :: rs, st =>
    let st2 := ingestResp st r.result
    if limit ≤ st2.2 then st2 else ingest limit rs st2

/-- Label keys sorted ascending for `FORWARD`, descending for
`BACKWARD` (`sort.Strings` / `sort.Reverse`). -/
def sortKeys (d : Direction) (keys : List String) : List String :=
  match d with
  | .FORWARD => List.insertionSort (fun a b => a ≤ b) keys
  | .BACKWARD => List.insertionSort (fun a b => b ≤ a) keys

/-- Modelled from the spec: the priority queue's direction-respecting
strict comparator over `(timestamp, label)`. -/
def pqLT (d : Direction) (a b : Int × String) : Bool :=
  match d with
  | .FORWARD => decide (a.1 < b.1) || (decide (a.1 = b.1) && decide (a.2 < b.2))
  | .BACKWARD => decide (b.1 < a.1) || (decide (a.1 = b.1) && decide (b.2 < a.2))

/-- Return a popped stream's remainder to the queue unless exhausted. -/
def pushBack (k : String) (es : List Entry) (rest : List (String × List Entry)) :
    List (String × List Entry) :=
  match es with
  | [] => rest
  | _ => (k, es) :: rest

/-- Modelled from the spec: one heap pop — take the head entry of the
stream whose `(head timestamp, label)` is best for the direction,
returning the popped `(label, entry)` and the queue's remainder. -/
def selectBest (d : Direction) :
    List (String × List Entry) → Option ((String × Entry) × List (String × List Entry))
  | [] => none
  | (_, []) :: rest => selectBest d rest
  | (k, e :: es) :: rest =>
    match selectBest d rest with
    | none => some ((k, e), pushBack k es rest)
    | some ((k2, e2), rest2) =>
      if pqLT d (e2.ts, k2) (e.ts, k) then some ((k2, e2), (k, e :: es) :: rest2)
      else some ((k, e), pushBack k es rest)

/-- Modelled from the spec: pop at most `n` entries off the queue
(`for i := 0; i < limit && pq.Len() > 0; i++`), in pop order. -/
def popN (d : Direction) : Nat → List (String × List Entry) → List (String × Entry)
  | 0, _ => []
  | n + 1, streams =>
    match selectBest d streams with
    | none => []
    | some (p, rest) => p :: popN d n rest

/-- The entries popped for one label, in pop order (`resultDict`). -/
def popsFor (k : String) (pops : List (String × Entry)) : List Entry :=
  (pops.filter (fun p => p.1 == k)).map (fun p => p.2)

/-- The heap's initial content: one merged stream per non-empty label,
in sorted key order (`pq.streams` before `heap.Init`). -/
def heapStreams (d : Direction) (g : Groups) (keys : List String) :
    List (String × List Entry) :=
  keys.filterMap (fun k =>
    let es := byDirMerge d (lookupMarkers g k)
    if es.isEmpty then none else some (k, es))

/-- Emit the popped entries grouped back under their labels, in sorted
key order, skipping labels with no popped entries (`resultDict` walk). -/
def emitPops (keys : List String) (pops : List (String × Entry)) : List Stream :=
  keys.filterMap (fun k =>
    let es := popsFor k pops
    if es.isEmpty then none else some (⟨k, es⟩ : Stream))

/-- The emission phase of the merge, after grouping produced `g` with
entry count `total`: either the `total <= limit` escape hatch or the
bounded heap drain. -/
def mergeEmit (d : Direction) (g : Groups) (total limit : Nat) : List Stream :=
  let keys := sortKeys d (g.map (fun p => p.1))
  if total ≤ limit then
    keys.map (fun k => ⟨k, byDirMerge d (lookupMarkers g k)⟩)
  else
    emitPops keys (popN d limit (heapStreams d g keys))

/-- `mergeOrderedNonOverlappingStreams(resps, limit, direction)`:
group entries by label with the early break, then emit. -/
def mergeOrderedNonOverlappingStreams (resps : List LokiResponse) (limit : Nat)
    (d : Direction) : List Stream :=
  let gt := ingest limit resps ([], 0)
  mergeEmit d gt.1 gt.2 limit

/-! ## Response merging (codec.go, `Codec.MergeResponse`)

The Go code switches on the dynamic type of `responses[0]` and then
asserts every response to that type without the two-valued form;
a mixed input therefore panics at runtime.  The panic is modelled as
the distinguished `typeAssertFail` error.  The prometheus sub-merge is
the backend collaborator (`queryrange.PrometheusCodec.MergeResponse`,
not part of this repository) and is modelled from the spec:
deduplicate-then-sort by timestamp within matrix series. -/

/-- Errors of the merge path.  `internalMixedShapes` is the
Internal(MixedShapes) error named by the spec's taxonomy; the
implementation never constructs it. -/
inductive MergeErr
  | noResponses
  | typeAssertFail
  | internalMixedShapes
deriving DecidableEq, Repr

/-- The response variants. -/
inductive RVariant
  | promV
  | logsV
  | seriesV
  | labelsV
deriving DecidableEq, Repr

/-- The variant of a response value. -/
def variantOf : Response → RVariant
  | .prom _ => .promV
  | .logs _ => .logsV
  | .series _ => .seriesV
  | .labelNames _ => .labelsV

/-- Downcast to `*LokiPromResponse`. -/
def asProm : Response → Option LokiPromResponse
  | .prom p => some p
  | _ => none

/-- Downcast to `*LokiResponse`. -/
def asLogs : Response → Option LokiResponse
  | .logs l => some l
  | _ => none

/-- Downcast to `*LokiSeriesResponse`. -/
def asSeries : Response → Option LokiSeriesResponse
  | .series s => some s
  | _ => none

/-- Downcast to `*LokiLabelNamesResponse`. -/
def asLabels : Response → Option LokiLabelNamesResponse
  | .labelNames l => some l
  | _ => none

/-- Downcast every response, `none` as soon as one assertion fails —
the Go loop panics at the first mismatched element. -/
def allOf {β : Type} (f : Response → Option β) : List Response → Option (List β)
  | [] => some []
  | x :: xs =>
    match f x, allOf f xs with
    | some b, some bs => some (b :: bs)
    | _, _ => none

/-- The dedup-keeping-first loop shared by the series and label-names
branches: `seen` is the set of canonical keys already emitted. -/
def dedupByGo {α : Type} (key : α → String) : List String → List α → List α
  | _, [] => []
  | seen, x :: xs =>
    if key x ∈ seen then dedupByGo key seen xs
    else x :: dedupByGo key (key x :: seen) xs

/-- The canonical string form of a series identifier
(`SeriesIdentifier.String()`): a deterministic rendering of its label
pairs, used only as the dedup key. -/
def SeriesIdentifier.keyStr (s : SeriesIdentifier) : String :=
  String.join (s.labels.map (fun p => p.1 ++ "=" ++ p.2 ++ ","))

/-- The series branch of `MergeResponse`: responses are walked in
order with one shared `uniqueSeries` set, which is a single
dedup-keeping-first pass over the concatenation. -/
def mergeSeriesData (ds : List (List SeriesIdentifier)) : List SeriesIdentifier :=
  dedupByGo SeriesIdentifier.keyStr [] ds.flatten

/-- The label-names branch of `MergeResponse`. -/
def mergeLabelsData (ns : List (List String)) : List String :=
  dedupByGo (fun s => s) [] ns.flatten

/-- Insert one sample in timestamp order (model of the backend sort). -/
def insertSample (x : Sample) : List Sample → List Sample
  | [] => [x]
  | y :: ys => if x.timestampMs ≤ y.timestampMs then x :: y :: ys else y :: insertSample x ys

/-- Sort samples by timestamp. -/
def sortSamples (l : List Sample) : List Sample := l.foldr insertSample []

/-- Merge one sample stream into an accumulator, concatenating samples
of an existing stream with the same labels. -/
def insertSampleStream (acc : List SampleStream) (s : SampleStream) : List SampleStream :=
  match acc with
  | [] => [s]
  | t :: rest =>
    if t.labels = s.labels then { t with samples := t.samples ++ s.samples } :: rest
    else t :: insertSampleStream rest s

/-- Modelled from the spec: the backend's native prometheus merge
(`queryrange.PrometheusCodec.MergeResponse`, an external collaborator):
group streams by labels, then deduplicate-then-sort samples by
timestamp within each series. -/
def promMergeModel (ps : List LokiPromResponse) : LokiPromResponse :=
  let streams := ((ps.map (fun p => p.data.result)).flatten).foldl insertSampleStream []
  let merged := streams.map (fun s =>
    { s with samples :=
        sortSamples (dedupByGo (fun x => renderInt x.timestampMs) [] s.samples) })
  { status := "success",
    data := { resultType := ((ps.head?.map (fun p => p.data.resultType)).getD "matrix"),
              result := merged } }

/-- `Codec.MergeResponse`: empty input is an error; otherwise dispatch
on the first response's variant, asserting every input to it. -/
def mergeResponse (rs : List Response) : Except MergeErr Response :=
  match rs with
  | [] => .error .noResponses
  | r :: rest =>
    match r with
    | .prom _ =>
      match allOf asProm (r :: rest) with
      | none => .error .typeAssertFail
      | some ps => .ok (.prom (promMergeModel ps))
    | .logs l0 =>
      match allOf asLogs (r :: rest) with
      | none => .error .typeAssertFail
      | some ls =>
        .ok (.logs ⟨"success", l0.direction, l0.limit, l0.version, l0.errorType,
          l0.errorMsg, "streams", mergeOrderedNonOverlappingStreams ls l0.limit l0.direction⟩)
    | .series s0 =>
      match allOf asSeries (r :: rest) with
      | none => .error .typeAssertFail
      | some ss =>
        .ok (.series ⟨s0.status, s0.version, mergeSeriesData (ss.map (fun x => x.data))⟩)
    | .labelNames n0 =>
      match allOf asLabels (r :: rest) with
      | none => .error .typeAssertFail
      | some ns =>
        .ok (.labelNames ⟨n0.status, n0.version, mergeLabelsData (ns.map (fun x => x.data))⟩)

theorem allOf_none_of {β : Type} (f : Response → Option β) (l : List Response)
    (x : Response) (hx : x ∈ l) (hfx : f x = none) : allOf f l = none := by
  induction l with
  | nil => simp at hx
  | cons y ys ih =>
    rcases List.mem_cons.mp hx with rfl | hmem
    · simp [allOf, hfx]
    · rw [allOf, ih hmem]
      cases f y <;> rfl

theorem allOf_map {β : Type} (f : Response → Option β) (g : β → Response)
    (hfg : ∀ b, f (g b) = some b) (l : List β) : allOf f (l.map g) = some l := by
  induction l with
  | nil => rfl
  | cons b bs ih => rw [List.map_cons, allOf, hfg b, ih]

theorem asProm_eq_none (x : Response) (h : variantOf x ≠ .promV) : asProm x = none := by
  cases x <;> first | exact absurd rfl h | rfl

theorem asLogs_eq_none (x : Response) (h : variantOf x ≠ .logsV) : asLogs x = none := by
  cases x <;> first | exact absurd rfl h | rfl

theorem asSeries_eq_none (x : Response) (h : variantOf x ≠ .seriesV) : asSeries x = none := by
  cases x <;> first | exact absurd rfl h | rfl

theorem asLabels_eq_none (x : Response) (h : variantOf x ≠ .labelsV) : asLabels x = none := by
  cases x <;> first | exact absurd rfl h | rfl

/-- C7 (amended): on a non-empty input whose responses do not all share
the first response's variant, the merger fails via the runtime type
assertion (a Go panic) — it never returns a merged response, but the
failure is not the graceful Internal(MixedShapes) error the spec
names. -/
theorem c7_mixed_shapes (r : Response) (rs : List Response)
    (x : Response) (hx : x ∈ r :: rs) (hne : variantOf x ≠ variantOf r) :
    mergeResponse (r :: rs) = .error .typeAssertFail := by
  cases r with
  | prom p =>
    rw [mergeResponse, allOf_none_of asProm _ x hx (asProm_eq_none x hne)]
  | logs l =>
    rw [mergeResponse, allOf_none_of asLogs _ x hx (asLogs_eq_none x hne)]
  | series s =>
    rw [mergeResponse, allOf_none_of asSeries _ x hx (asSeries_eq_none x hne)]
  | labelNames n =>
    rw [mergeResponse, allOf_none_of asLabels _ x hx (asLabels_eq_none x hne)]

/-- C7 witness: a label-names response followed by a series response is
rejected with the type-assertion failure. -/
theorem c7_mixed_shapes_witness :
    mergeResponse [Response.labelNames ⟨"success", 1, ["a"]⟩,
      Response.series ⟨"success", 1, []⟩] = .error .typeAssertFail :=
  c7_mixed_shapes (Response.labelNames ⟨"success", 1, ["a"]⟩)
    [Response.series ⟨"success", 1, []⟩]
    (Response.series ⟨"success", 1, []⟩) (by simp) (by decide)

/-- C7 counterexample: at a concrete mixed input, the merger's result is
the type-assertion panic, not the Internal(MixedShapes) error the claim
asserts. -/
theorem c7_mixed_shapes_counterexample :
    mergeResponse [Response.series ⟨"success", 1, []⟩,
        Response.labelNames ⟨"success", 1, ["a"]⟩] = .error .typeAssertFail ∧
    mergeResponse [Response.series ⟨"success", 1, []⟩,
        Response.labelNames ⟨"success", 1, ["a"]⟩] ≠ .error .internalMixedShapes := by
  refine ⟨rfl, fun hc => ?_⟩
  exact MergeErr.noConfusion (Except.error.inj hc)

/-- C10: merging an empty response list is an error, never a merged
response; on a non-empty list the merger dispatches on the first
response's variant — in particular a successful merge always has the
first response's variant. -/
theorem c10_merge_dispatch :
    mergeResponse [] = .error .noResponses ∧
    ∀ (r : Response) (rs : List Response) (out : Response),
      mergeResponse (r :: rs) = .ok out → variantOf out = variantOf r := by
  refine ⟨rfl, ?_⟩
  intro r rs out h
  cases r with
  | prom p =>
    rw [mergeResponse] at h
    cases hall : allOf asProm (Response.prom p :: rs) with
    | none => rw [hall] at h; exact absurd h (by simp)
    | some ps => rw [hall] at h; cases h; rfl
  | logs l =>
    rw [mergeResponse] at h
    cases hall : allOf asLogs (Response.logs l :: rs) with
    | none => rw [hall] at h; exact absurd h (by simp)
    | some ls => rw [hall] at h; cases h; rfl
  | series s =>
    rw [mergeResponse] at h
    cases hall : allOf asSeries (Response.series s :: rs) with
    | none => rw [hall] at h; exact absurd h (by simp)
    | some ss => rw [hall] at h; cases h; rfl
  | labelNames n =>
    rw [mergeResponse] at h
    cases hall : allOf asLabels (Response.labelNames n :: rs) with
    | none => rw [hall] at h; exact absurd h (by simp)
    | some ns => rw [hall] at h; cases h; rfl

/-- C10 witness: the dispatch conclusion applied at a concrete
singleton label-names merge. -/
theorem c10_merge_dispatch_witness :
    variantOf (Response.labelNames ⟨"success", 1, mergeLabelsData [["a"]]⟩) =
      variantOf (Response.labelNames ⟨"success", 1, ["a"]⟩) :=
  c10_merge_dispatch.2 (Response.labelNames ⟨"success", 1, ["a"]⟩) []
    (Response.labelNames ⟨"success", 1, mergeLabelsData [["a"]]⟩) rfl

theorem dedupByGo_sublist {α : Type} (key : α → String) (seen : List String)
    (xs : List α) : (dedupByGo key seen xs).Sublist xs := by
  induction xs generalizing seen with
  | nil => simp [dedupByGo]
  | cons x xs ih =>
    rw [dedupByGo]
    by_cases hmem : key x ∈ seen
    · rw [if_pos hmem]
      exact (ih seen).cons x
    · rw [if_neg hmem]
      exact (ih (key x :: seen)).cons₂ x

theorem mem_dedupByGo_key {α : Type} (key : α → String) (seen : List String)
    (xs : List α) (y : α) (hy : y ∈ dedupByGo key seen xs) : key y ∉ seen := by
  induction xs generalizing seen with
  | nil => simp [dedupByGo] at hy
  | cons x xs ih =>
    rw [dedupByGo] at hy
    by_cases hmem : key x ∈ seen
    · rw [if_pos hmem] at hy
      exact ih seen hy
    · rw [if_neg hmem] at hy
      rcases List.mem_cons.mp hy with rfl | hy2
      · exact hmem
      · intro hc
        exact ih (key x :: seen) hy2 (List.mem_cons_of_mem _ hc)

theorem dedupByGo_keys_nodup {α : Type} (key : α → String) (seen : List String)
    (xs : List α) : ((dedupByGo key seen xs).map key).Nodup := by
  induction xs generalizing seen with
  | nil => simp [dedupByGo]
  | cons x xs ih =>
    rw [dedupByGo]
    by_cases hmem : key x ∈ seen
    · rw [if_pos hmem]
      exact ih seen
    · rw [if_neg hmem]
      rw [List.map_cons, List.nodup_cons]
      refine ⟨?_, ih (key x :: seen)⟩
      intro hc
      obtain ⟨y, hy, hky⟩ := List.mem_map.mp hc
      exact mem_dedupByGo_key key _ _ y hy (hky ▸ List.mem_cons_self _ _)

theorem dedupByGo_filter_mem {α : Type} (key : α → String) (seen : List String)
    (xs : List α) (k : String) (hk : k ∈ seen) :
    (dedupByGo key seen xs).filter (fun x => key x == k) = [] := by
  induction xs generalizing seen with
  | nil => simp [dedupByGo]
  | cons x xs ih =>
    rw [dedupByGo]
    by_cases hmem : key x ∈ seen
    · rw [if_pos hmem]
      exact ih seen hk
    · rw [if_neg hmem]
      rw [List.filter_cons]
      have hne : (key x == k) = false := by
        simp only [beq_eq_false_iff_ne]
        intro hc
        exact hmem (hc ▸ hk)
      rw [hne]
      simp only [Bool.false_eq_true, if_false]
      exact ih (key x :: seen) (List.mem_cons_of_mem _ hk)

theorem dedupByGo_filter_not_mem {α : Type} (key : α → String) (seen : List String)
    (xs : List α) (k : String) (hk : k ∉ seen) :
    (dedupByGo key seen xs).filter (fun x => key x == k) =
      (xs.filter (fun x => key x == k)).take 1 := by
  induction xs generalizing seen with
  | nil => simp [dedupByGo]
  | cons x xs ih =>
    rw [dedupByGo]
    by_cases hmem : key x ∈ seen
    · rw [if_pos hmem]
      have hne : (key x == k) = false := by
        simp only [beq_eq_false_iff_ne]
        intro hc
        exact hk (hc ▸ hmem)
      rw [List.filter_cons, hne]
      simp only [Bool.false_eq_true, if_false]
      exact ih seen hk
    · rw [if_neg hmem]
      by_cases hkx : key x = k
      · have hb : (key x == k) = true := beq_iff_eq.mpr hkx
        rw [List.filter_cons, hb, List.filter_cons, hb]
        simp only [if_true]
        rw [dedupByGo_filter_mem key _ _ k (hkx ▸ List.mem_cons_self _ _)]
        simp
      · have hb : (key x == k) = false := beq_eq_false_iff_ne.mpr hkx
        rw [List.filter_cons, hb, List.filter_cons, hb]
        simp only [Bool.false_eq_true, if_false]
        refine ih (key x :: seen) ?_
        intro hc
        rcases List.mem_cons.mp hc with hc1 | hc2
        · exact hkx hc1.symm
        · exact hk hc2

/-- C6: the merged series list and merged label-name list contain no
duplicates (series compared by canonical string form, names by string
equality) and preserve first-appearance order across the inputs taken
in sequence: each output is a sublist of the input concatenation, and
for every key the output keeps exactly the first input element bearing
it.  The last two conjuncts tie the data operations to `MergeResponse`
on series and label-names response lists. -/
theorem c6_merge_dedup (ds : List (List SeriesIdentifier)) (ns : List (List String))
    (s0 : LokiSeriesResponse) (ss : List LokiSeriesResponse)
    (n0 : LokiLabelNamesResponse) (nn : List LokiLabelNamesResponse) :
    ((mergeSeriesData ds).map SeriesIdentifier.keyStr).Nodup ∧
    (mergeSeriesData ds).Sublist ds.flatten ∧
    (∀ k, (mergeSeriesData ds).filter (fun x => SeriesIdentifier.keyStr x == k) =
      (ds.flatten.filter (fun x => SeriesIdentifier.keyStr x == k)).take 1) ∧
    (mergeLabelsData ns).Nodup ∧
    (mergeLabelsData ns).Sublist ns.flatten ∧
    (∀ k, (mergeLabelsData ns).filter (fun x => x == k) =
      (ns.flatten.filter (fun x => x == k)).take 1) ∧
    mergeResponse ((s0 :: ss).map Response.series) =
      .ok (.series ⟨s0.status, s0.version, mergeSeriesData ((s0 :: ss).map (fun x => x.data))⟩) ∧
    mergeResponse ((n0 :: nn).map Response.labelNames) =
      .ok (.labelNames ⟨n0.status, n0.version,
        mergeLabelsData ((n0 :: nn).map (fun x => x.data))⟩) := by
  refine ⟨dedupByGo_keys_nodup _ _ _, dedupByGo_sublist _ _ _,
    fun k => dedupByGo_filter_not_mem _ [] _ k (by simp), ?_, dedupByGo_sublist _ _ _,
    fun k => dedupByGo_filter_not_mem _ [] _ k (by simp), ?_, ?_⟩
  · have h := dedupByGo_keys_nodup (fun s => s) [] ns.flatten
    simpa [mergeLabelsData] using h
  · rw [List.map_cons, mergeResponse,
      show (Response.series s0 :: ss.map Response.series) = (s0 :: ss).map Response.series
        from rfl,
      allOf_map asSeries Response.series (fun b => rfl) (s0 :: ss)]
  · rw [List.map_cons, mergeResponse,
      show (Response.labelNames n0 :: nn.map Response.labelNames) =
        (n0 :: nn).map Response.labelNames from rfl,
      allOf_map asLabels Response.labelNames (fun b => rfl) (n0 :: nn)]

/-! ## Sortedness of the entry merges -/

/-- A run is sorted under a boolean comparator. -/
abbrev SortedBy (le : Entry → Entry → Bool) (l : List Entry) : Prop :=
  List.Pairwise (fun a b => le a b = true) l

theorem entryLE_total (d : Direction) (a b : Entry) :
    entryLE d a b = true ∨ entryLE d b a = true := by
  cases d <;> simp [entryLE] <;> omega

theorem entryLE_trans (d : Direction) (a b c : Entry)
    (hab : entryLE d a b = true) (hbc : entryLE d b c = true) : entryLE d a c = true := by
  cases d <;> simp [entryLE] at hab hbc ⊢ <;> omega

theorem mergeEntries_length (le : Entry → Entry → Bool) (xs ys : List Entry) :
    (mergeEntries le xs ys).length = xs.length + ys.length := by
  induction xs, ys using mergeEntries.induct le with
  | case1 ys => simp [mergeEntries]
  | case2 x xs => simp [mergeEntries]
  | case3 x xs y ys hle ih => simp only [mergeEntries, if_pos hle, List.length_cons, ih]; omega
  | case4 x xs y ys hle ih => simp only [mergeEntries, if_neg hle, List.length_cons, ih]; omega

theorem mem_mergeEntries (le : Entry → Entry → Bool) (xs ys : List Entry) (a : Entry) :
    a ∈ mergeEntries le xs ys ↔ a ∈ xs ∨ a ∈ ys := by
  induction xs, ys using mergeEntries.induct le with
  | case1 ys => simp [mergeEntries]
  | case2 x xs => simp [mergeEntries]
  | case3 x xs y ys hle ih =>
    simp only [mergeEntries, if_pos hle, List.mem_cons, ih]
    tauto
  | case4 x xs y ys hle ih =>
    simp only [mergeEntries, if_neg hle, List.mem_cons, ih]
    tauto

theorem mergeEntries_sorted (d : Direction) (xs ys : List Entry)
    (hxs : SortedBy (entryLE d) xs) (hys : SortedBy (entryLE d) ys) :
    SortedBy (entryLE d) (mergeEntries (entryLE d) xs ys) := by
  induction xs, ys using mergeEntries.induct (entryLE d) with
  | case1 ys => simpa [mergeEntries] using hys
  | case2 x xs => simpa [mergeEntries] using hxs
  | case3 x xs y ys hle ih =>
    rw [SortedBy] at hxs hys ⊢
    rw [mergeEntries, if_pos hle, List.pairwise_cons]
    rcases List.pairwise_cons.mp hxs with ⟨hx, hxs2⟩
    refine ⟨?_, ih hxs2 hys⟩
    intro b hb
    rcases (mem_mergeEntries _ _ _ b).mp hb with hbl | hbr
    · exact hx b hbl
    · rcases List.mem_cons.mp hbr with rfl | hby
      · exact hle
      · exact entryLE_trans d x y b hle ((List.pairwise_cons.mp hys).1 b hby)
  | case4 x xs y ys hle ih =>
    rw [SortedBy] at hxs hys ⊢
    rw [mergeEntries, if_neg hle, List.pairwise_cons]
    rcases List.pairwise_cons.mp hys with ⟨hy, hys2⟩
    have hyx : entryLE d y x = true := by
      rcases entryLE_total d x y with h | h
      · exact absurd h hle
      · exact h
    refine ⟨?_, ih hxs hys2⟩
    intro b hb
    rcases (mem_mergeEntries _ _ _ b).mp hb with hbl | hbr
    · rcases List.mem_cons.mp hbl with rfl | hbx
      · exact hyx
      · exact entryLE_trans d y x b hyx ((List.pairwise_cons.mp hxs).1 b hbx)
    · exact hy b hbr

theorem byDirMerge_foldl_sorted (d : Direction) (ms : List (List Entry)) :
    ∀ acc, SortedBy (entryLE d) acc → (∀ m ∈ ms, SortedBy (entryLE d) m) →
      SortedBy (entryLE d) (ms.foldl (fun a m => mergeEntries (entryLE d) a m) acc) := by
  induction ms with
  | nil => intro acc hacc _; simpa using hacc
  | cons m ms ih =>
    intro acc hacc hms
    rw [List.foldl_cons]
    exact ih (mergeEntries (entryLE d) acc m)
      (mergeEntries_sorted d acc m hacc (hms m (List.mem_cons_self _ _)))
      (fun x hx => hms x (List.mem_cons_of_mem _ hx))

theorem byDirMerge_sorted (d : Direction) (ms : List (List Entry))
    (hms : ∀ m ∈ ms, SortedBy (entryLE d) m) : SortedBy (entryLE d) (byDirMerge d ms) :=
  byDirMerge_foldl_sorted d ms [] (by simp [SortedBy]) hms

theorem byDirMerge_foldl_length (d : Direction) (ms : List (List Entry)) :
    ∀ acc, (ms.foldl (fun a m => mergeEntries (entryLE d) a m) acc).length =
      acc.length + (ms.map List.length).sum := by
  induction ms with
  | nil => intro acc; simp
  | cons m ms ih =>
    intro acc
    rw [List.foldl_cons, ih, mergeEntries_length]
    simp
    omega

theorem byDirMerge_length (d : Direction) (ms : List (List Entry)) :
    (byDirMerge d ms).length = (ms.map List.length).sum := by
  simpa [byDirMerge] using byDirMerge_foldl_length d ms []

/-! ## Accounting for the grouping phase of the stream merge -/

/-- Total entry count recorded in the groups. -/
def groupsTotal (g : Groups) : Nat := (g.map (fun p => (p.2.map List.length).sum)).sum

/-- Total entry count of a list of streams. -/
def streamsSum (l : List Stream) : Nat := (l.map (fun s => s.entries.length)).sum

/-- Total entry count across responses. -/
def respsSum (rs : List LokiResponse) : Nat := (rs.map (fun r => streamsSum r.result)).sum

/-- Every marker run recorded in the groups is sorted. -/
def GroupsWF (d : Direction) (g : Groups) : Prop :=
  ∀ p ∈ g, ∀ m ∈ p.2, SortedBy (entryLE d) m

theorem addMarker_fst (g : Groups) (lab : String) (es : List Entry) :
    (addMarker g lab es).map (fun p => p.1) =
      if lab ∈ g.map (fun p => p.1) then g.map (fun p => p.1)
      else g.map (fun p => p.1) ++ [lab] := by
  induction g with
  | nil => simp [addMarker]
  | cons p rest ih =>
    obtain ⟨k, ms⟩ := p
    by_cases hk : k = lab
    · subst hk
      simp [addMarker]
    · rw [show addMarker ((k, ms) :: rest) lab es = (k, ms) :: addMarker rest lab es by
        rw [addMarker, if_neg hk]]
      rw [List.map_cons, ih, List.map_cons]
      by_cases hmem : lab ∈ rest.map (fun p => p.1)
      · rw [if_pos hmem, if_pos (by simp [hmem])]
      · rw [if_neg hmem, if_neg (by simp [hmem, Ne.symm hk]), List.cons_append]

theorem addMarker_nodup (g : Groups) (lab : String) (es : List Entry)
    (h : (g.map (fun p => p.1)).Nodup) :
    ((addMarker g lab es).map (fun p => p.1)).Nodup := by
  rw [addMarker_fst]
  by_cases hmem : lab ∈ g.map (fun p => p.1)
  · rwa [if_pos hmem]
  · rw [if_neg hmem]
    simp [List.nodup_append, h, hmem]

theorem addMarker_total (g : Groups) (lab : String) (es : List Entry) :
    groupsTotal (addMarker g lab es) = groupsTotal g + es.length := by
  induction g with
  | nil => simp [addMarker, groupsTotal]
  | cons p rest ih =>
    obtain ⟨k, ms⟩ := p
    by_cases hk : k = lab
    · subst hk
      rw [show addMarker ((k, ms) :: rest) k es = (k, ms ++ [es]) :: rest by
        rw [addMarker, if_pos rfl]]
      simp [groupsTotal]
      omega
    · rw [show addMarker ((k, ms) :: rest) lab es = (k, ms) :: addMarker rest lab es by
        rw [addMarker, if_neg hk]]
      simp only [groupsTotal, List.map_cons, List.sum_cons] at ih ⊢
      omega

theorem addMarker_WF (d : Direction) (g : Groups) (lab : String) (es : List Entry)
    (hg : GroupsWF d g) (hes : SortedBy (entryLE d) es) :
    GroupsWF d (addMarker g lab es) := by
  induction g with
  | nil =>
    intro p hp m hm
    simp [addMarker] at hp
    subst hp
    simp at hm
    subst hm
    exact hes
  | cons q rest ih =>
    obtain ⟨k, ms⟩ := q
    by_cases hk : k = lab
    · subst hk
      rw [show addMarker ((k, ms) :: rest) k es = (k, ms ++ [es]) :: rest by
        rw [addMarker, if_pos rfl]]
      intro p hp m hm
      rcases List.mem_cons.mp hp with rfl | hp2
      · simp only at hm
        rcases List.mem_append.mp hm with hm1 | hm2
        · exact hg (k, ms) (List.mem_cons_self _ _) m hm1
        · simp at hm2
          subst hm2
          exact hes
      · exact hg p (List.mem_cons_of_mem _ hp2) m hm
    · rw [show addMarker ((k, ms) :: rest) lab es = (k, ms) :: addMarker rest lab es by
        rw [addMarker, if_neg hk]]
      intro p hp m hm
      rcases List.mem_cons.mp hp with rfl | hp2
      · exact hg (k, ms) (List.mem_cons_self _ _) m hm
      · exact ih (fun q hq => hg q (List.mem_cons_of_mem _ hq)) p hp2 m hm

theorem lookup_WF (d : Direction) (g : Groups) (hg : GroupsWF d g) (k : String) :
    ∀ m ∈ lookupMarkers g k, SortedBy (entryLE d) m := by
  induction g with
  | nil => intro m hm; simp [lookupMarkers] at hm
  | cons p rest ih =>
    obtain ⟨k0, ms⟩ := p
    intro m hm
    rw [lookupMarkers] at hm
    by_cases hk : k0 = k
    · rw [if_pos hk] at hm
      exact hg (k0, ms) (List.mem_cons_self _ _) m hm
    · rw [if_neg hk] at hm
      exact ih (fun q hq => hg q (List.mem_cons_of_mem _ hq)) m hm

theorem lookup_map_sum (f : List (List Entry) → Nat) (g : Groups)
    (h : (g.map (fun p => p.1)).Nodup) :
    ((g.map (fun p => p.1)).map (fun k => f (lookupMarkers g k))).sum =
      (g.map (fun p => f p.2)).sum := by
  induction g with
  | nil => simp
  | cons p rest ih =>
    obtain ⟨k0, ms⟩ := p
    rw [List.map_cons, List.map_cons, List.map_cons, List.sum_cons, List.sum_cons]
    rw [List.map_cons, List.nodup_cons] at h
    have hhead : lookupMarkers ((k0, ms) :: rest) k0 = ms := by
      rw [lookupMarkers, if_pos rfl]
    have htail : (rest.map (fun p => p.1)).map
          (fun k => f (lookupMarkers ((k0, ms) :: rest) k)) =
        (rest.map (fun p => p.1)).map (fun k => f (lookupMarkers rest k)) := by
      apply List.map_congr_left
      intro k hk
      have hne : k0 ≠ k := by
        intro hc
        exact h.1 (hc ▸ hk)
      rw [lookupMarkers, if_neg hne]
    rw [hhead, htail, ih h.2]

theorem ingestResp_spec (streams : List Stream) : ∀ (g : Groups) (t : Nat),
    (ingestResp (g, t) streams).2 = t + streamsSum streams ∧
    groupsTotal (ingestResp (g, t) streams).1 = groupsTotal g + streamsSum streams ∧
    ((g.map (fun p => p.1)).Nodup →
      ((ingestResp (g, t) streams).1.map (fun p => p.1)).Nodup) ∧
    (∀ d, GroupsWF d g → (∀ s ∈ streams, SortedBy (entryLE d) s.entries) →
      GroupsWF d (ingestResp (g, t) streams).1) := by
  induction streams with
  | nil =>
    intro g t
    refine ⟨by simp [ingestResp, streamsSum], by simp [ingestResp, streamsSum],
      fun h => by simpa [ingestResp] using h, fun d hg _ => by simpa [ingestResp] using hg⟩
  | cons s ss ih =>
    intro g t
    have hstep : ingestResp (g, t) (s :: ss) =
        ingestResp (addMarker g s.labels s.entries, t + s.entries.length) ss := by
      rw [ingestResp, List.foldl_cons]
      rfl
    rw [hstep]
    obtain ⟨h1, h2, h3, h4⟩ := ih (addMarker g s.labels s.entries) (t + s.entries.length)
    refine ⟨?_, ?_, ?_, ?_⟩
    · rw [h1]
      simp [streamsSum]
      omega
    · rw [h2, addMarker_total]
      simp [streamsSum]
      omega
    · intro hnod
      exact h3 (addMarker_nodup g s.labels s.entries hnod)
    · intro d hg hss
      exact h4 d (addMarker_WF d g s.labels s.entries hg (hss s (List.mem_cons_self _ _)))
        (fun x hx => hss x (List.mem_cons_of_mem _ hx))

theorem ingest_spec (limit : Nat) (resps : List LokiResponse) : ∀ (g : Groups) (t : Nat),
    t = groupsTotal g →
    (ingest limit resps (g, t)).2 = groupsTotal (ingest limit resps (g, t)).1 ∧
    min limit (ingest limit resps (g, t)).2 = min limit (t + respsSum resps) ∧
    ((g.map (fun p => p.1)).Nodup →
      ((ingest limit resps (g, t)).1.map (fun p => p.1)).Nodup) ∧
    (∀ d, GroupsWF d g →
      (∀ r ∈ resps, ∀ s ∈ r.result, SortedBy (entryLE d) s.entries) →
      GroupsWF d (ingest limit resps (g, t)).1) := by
  induction resps with
  | nil =>
    intro g t ht
    exact ⟨by simpa [ingest] using ht, by simp [ingest, respsSum],
      fun h => by simpa [ingest] using h, fun d hg _ => by simpa [ingest] using hg⟩
  | cons r rs ih =>
    intro g t ht
    obtain ⟨h1, h2, h3, h4⟩ := ingestResp_spec r.result g t
    have hpair : ingestResp (g, t) r.result =
        ((ingestResp (g, t) r.result).1, (ingestResp (g, t) r.result).2) := rfl
    by_cases hbr : limit ≤ (ingestResp (g, t) r.result).2
    · have hout : ingest limit (r :: rs) (g, t) = ingestResp (g, t) r.result := by
        rw [ingest, if_pos hbr]
      rw [hout]
      refine ⟨by rw [h1, h2, ht], ?_, fun hnod => h3 hnod, fun d hg hs => ?_⟩
      · rw [h1]
        simp only [respsSum, List.map_cons, List.sum_cons]
        have : streamsSum r.result ≤ streamsSum r.result +
            (rs.map (fun x => streamsSum x.result)).sum := by omega
        omega
      · exact h4 d hg (fun s hs2 => hs r (List.mem_cons_self _ _) s hs2)
    · have hout : ingest limit (r :: rs) (g, t) =
          ingest limit rs (ingestResp (g, t) r.result) := by
        rw [ingest, if_neg hbr]
      rw [hout, hpair]
      obtain ⟨g1, g2, g3, g4⟩ := ih (ingestResp (g, t) r.result).1
        (ingestResp (g, t) r.result).2 (by rw [h1, h2, ht])
      refine ⟨g1, ?_, fun hnod => g3 (h3 hnod), fun d hg hs => ?_⟩
      · rw [g2, h1]
        simp only [respsSum, List.map_cons, List.sum_cons]
        have : t + (streamsSum r.result +
            (rs.map (fun x => streamsSum x.result)).sum) =
          t + streamsSum r.result + (rs.map (fun x => streamsSum x.result)).sum := by omega
        rw [this]
      · exact g4 d (h4 d hg (fun s hs2 => hs r (List.mem_cons_self _ _) s hs2))
          (fun x hx s hs2 => hs x (List.mem_cons_of_mem _ hx) s hs2)

/-! ## The bounded heap drain: selectBest / popN -/

/-- Total entry count held in the queue. -/
def totalStreams (streams : List (String × List Entry)) : Nat :=
  (streams.map (fun p => p.2.length)).sum

/-- The entries the queue holds for one label, in order. -/
def entriesFor (k : String) (streams : List (String × List Entry)) : List Entry :=
  ((streams.filter (fun p => p.1 == k)).map (fun p => p.2)).flatten

theorem entriesFor_cons (k2 k : String) (es : List Entry)
    (rest : List (String × List Entry)) :
    entriesFor k2 ((k, es) :: rest) =
      if k == k2 then es ++ entriesFor k2 rest else entriesFor k2 rest := by
  rw [entriesFor, List.filter_cons]
  by_cases hb : (k == k2) = true
  · simp only [hb, if_true, List.map_cons, List.flatten_cons]
    rfl
  · simp only [hb]
    rfl

theorem entriesFor_cons_nil (k2 k : String) (rest : List (String × List Entry)) :
    entriesFor k2 ((k, []) :: rest) = entriesFor k2 rest := by
  rw [entriesFor_cons]
  split <;> simp

theorem entriesFor_pushBack (k2 k : String) (es : List Entry)
    (rest : List (String × List Entry)) :
    entriesFor k2 (pushBack k es rest) = entriesFor k2 ((k, es) :: rest) := by
  cases es with
  | nil => rw [pushBack, entriesFor_cons_nil]
  | cons e es => rfl

theorem totalStreams_cons (k : String) (es : List Entry)
    (rest : List (String × List Entry)) :
    totalStreams ((k, es) :: rest) = es.length + totalStreams rest := by
  simp [totalStreams]

theorem totalStreams_pushBack (k : String) (es : List Entry)
    (rest : List (String × List Entry)) :
    totalStreams (pushBack k es rest) = es.length + totalStreams rest := by
  cases es with
  | nil => simp [pushBack, totalStreams]
  | cons e es => simp [pushBack, totalStreams]

theorem pushBack_fst_sublist (k : String) (es : List Entry)
    (rest : List (String × List Entry)) :
    ((pushBack k es rest).map (fun p => p.1)).Sublist
      (((k, es) :: rest).map (fun p => p.1)) := by
  cases es with
  | nil =>
    rw [pushBack, List.map_cons]
    exact (List.Sublist.refl _).cons _
  | cons e es => exact List.Sublist.refl _

theorem selectBest_cons_none (d : Direction) (k : String) (e : Entry) (es : List Entry)
    (rest : List (String × List Entry)) (h : selectBest d rest = none) :
    selectBest d ((k, e :: es) :: rest) = some ((k, e), pushBack k es rest) := by
  rw [selectBest, h]

theorem selectBest_cons_some (d : Direction) (k : String) (e : Entry) (es : List Entry)
    (rest rest2 : List (String × List Entry)) (k2 : String) (e2 : Entry)
    (h : selectBest d rest = some ((k2, e2), rest2)) :
    selectBest d ((k, e :: es) :: rest) =
      if pqLT d (e2.ts, k2) (e.ts, k) then some ((k2, e2), (k, e :: es) :: rest2)
      else some ((k, e), pushBack k es rest) := by
  rw [selectBest, h]

theorem selectBest_none (d : Direction) :
    ∀ streams, selectBest d streams = none → totalStreams streams = 0 := by
  intro streams
  induction streams with
  | nil => intro _; rfl
  | cons p rest ih =>
    obtain ⟨k, es⟩ := p
    cases es with
    | nil =>
      intro h
      rw [selectBest] at h
      rw [totalStreams_cons, ih h]
      simp
    | cons e es =>
      intro h
      cases hsel : selectBest d rest with
      | none => rw [selectBest_cons_none d k e es rest hsel] at h; cases h
      | some pr =>
        obtain ⟨⟨k2, e2⟩, rest2⟩ := pr
        rw [selectBest_cons_some d k e es rest rest2 k2 e2 hsel] at h
        split at h <;> cases h

/-- The five facts of taking the head of the first stream. -/
theorem take_head_spec (k : String) (e : Entry) (es : List Entry)
    (rest : List (String × List Entry)) :
    totalStreams ((k, e :: es) :: rest) = totalStreams (pushBack k es rest) + 1 ∧
    k ∈ ((k, e :: es) :: rest).map (fun p => p.1) ∧
    ((pushBack k es rest).map (fun p => p.1)).Sublist
      (((k, e :: es) :: rest).map (fun p => p.1)) ∧
    entriesFor k ((k, e :: es) :: rest) = e :: entriesFor k (pushBack k es rest) ∧
    (∀ k2, k2 ≠ k → entriesFor k2 ((k, e :: es) :: rest) =
      entriesFor k2 (pushBack k es rest)) := by
  refine ⟨?_, by simp, ?_, ?_, ?_⟩
  · rw [totalStreams_cons, totalStreams_pushBack]
    simp only [List.length_cons]
    omega
  · exact pushBack_fst_sublist k es rest
  · rw [entriesFor_pushBack, entriesFor_cons, entriesFor_cons, if_pos (beq_self_eq_true k),
      if_pos (beq_self_eq_true k)]
    exact List.cons_append e es (entriesFor k rest)
  · intro k2 hk2
    have hb : (k == k2) = false := beq_eq_false_iff_ne.mpr (fun hc => hk2 hc.symm)
    rw [entriesFor_pushBack, entriesFor_cons, entriesFor_cons, hb]
    simp

/-- What one `selectBest` pop guarantees: the count drops by one, the
popped label is in the queue, the remainder's labels are a sublist, the
popped entry is the head of its label's entries, and other labels'
entries are untouched. -/
theorem selectBest_some (d : Direction) :
    ∀ (streams rest' : List (String × List Entry)) (k0 : String) (e0 : Entry),
      ((streams.map (fun p => p.1)).Nodup) →
      selectBest d streams = some ((k0, e0), rest') →
      totalStreams streams = totalStreams rest' + 1 ∧
      k0 ∈ streams.map (fun p => p.1) ∧
      ((rest'.map (fun p => p.1)).Sublist (streams.map (fun p => p.1))) ∧
      entriesFor k0 streams = e0 :: entriesFor k0 rest' ∧
      (∀ k, k ≠ k0 → entriesFor k streams = entriesFor k rest') := by
  intro streams
  induction streams with
  | nil => intro rest' k0 e0 _ h; cases h
  | cons p rest ih =>
    obtain ⟨k, es⟩ := p
    intro rest' k0 e0 hnod h
    have hnodtail : (rest.map (fun p => p.1)).Nodup := by
      rw [List.map_cons, List.nodup_cons] at hnod
      exact hnod.2
    have hknot : k ∉ rest.map (fun p => p.1) := by
      rw [List.map_cons, List.nodup_cons] at hnod
      exact hnod.1
    cases es with
    | nil =>
      rw [selectBest] at h
      obtain ⟨c1, c2, c3, c4, c5⟩ := ih rest' k0 e0 hnodtail h
      refine ⟨?_, ?_, ?_, ?_, ?_⟩
      · rw [totalStreams_cons, c1]
        simp
      · exact List.mem_cons_of_mem _ c2
      · exact c3.cons _
      · rw [entriesFor_cons_nil, c4]
      · intro k2 hk2
        rw [entriesFor_cons_nil, c5 k2 hk2]
    | cons e es =>
      cases hsel : selectBest d rest with
      | none =>
        rw [selectBest_cons_none d k e es rest hsel] at h
        simp only [Option.some.injEq, Prod.mk.injEq] at h
        obtain ⟨⟨hk, he⟩, hrest⟩ := h
        subst hk
        subst he
        subst hrest
        exact take_head_spec k e es rest
      | some pr =>
        obtain ⟨⟨k2, e2⟩, rest2⟩ := pr
        rw [selectBest_cons_some d k e es rest rest2 k2 e2 hsel] at h
        obtain ⟨c1, c2, c3, c4, c5⟩ := ih rest2 k2 e2 hnodtail hsel
        have hkk2 : k ≠ k2 := by
          intro hc
          exact hknot (hc ▸ c2)
        by_cases hlt : pqLT d (e2.ts, k2) (e.ts, k) = true
        · rw [if_pos hlt] at h
          simp only [Option.some.injEq, Prod.mk.injEq] at h
          obtain ⟨⟨hk, he⟩, hrest⟩ := h
          subst hk
          subst he
          subst hrest
          have hbk : (k == k2) = false := beq_eq_false_iff_ne.mpr hkk2
          refine ⟨?_, ?_, ?_, ?_, ?_⟩
          · rw [totalStreams_cons, totalStreams_cons, c1]
            omega
          · exact List.mem_cons_of_mem _ c2
          · rw [List.map_cons, List.map_cons]
            exact List.Sublist.cons₂ _ c3
          · rw [entriesFor_cons, hbk, entriesFor_cons, hbk]
            simp only [Bool.false_eq_true, if_false]
            exact c4
          · intro k3 hk3
            rw [entriesFor_cons, entriesFor_cons, c5 k3 hk3]
        · rw [if_neg hlt] at h
          simp only [Option.some.injEq, Prod.mk.injEq] at h
          obtain ⟨⟨hk, he⟩, hrest⟩ := h
          subst hk
          subst he
          subst hrest
          exact take_head_spec k e es rest

theorem popsFor_cons (k k0 : String) (e0 : Entry) (l : List (String × Entry)) :
    popsFor k ((k0, e0) :: l) =
      if (k0 == k) = true then e0 :: popsFor k l else popsFor k l := by
  rw [popsFor, List.filter_cons]
  by_cases hb : (k0 == k) = true
  · simp only [hb, if_true, List.map_cons]
    rfl
  · simp only [hb]
    rfl

theorem popN_length (d : Direction) :
    ∀ (n : Nat) (streams : List (String × List Entry)),
      ((streams.map (fun p => p.1)).Nodup) →
      (popN d n streams).length = min n (totalStreams streams) := by
  intro n
  induction n with
  | zero => intro streams _; simp [popN]
  | succ n ih =>
    intro streams hnod
    cases hsel : selectBest d streams with
    | none =>
      have htot := selectBest_none d streams hsel
      rw [popN, hsel]
      simp [htot]
    | some pr =>
      obtain ⟨⟨k0, e0⟩, rest2⟩ := pr
      obtain ⟨c1, c2, c3, c4, c5⟩ := selectBest_some d streams rest2 k0 e0 hnod hsel
      rw [popN, hsel]
      show ((k0, e0) :: popN d n rest2).length = min (n + 1) (totalStreams streams)
      rw [List.length_cons, ih rest2 (hnod.sublist c3), c1]
      omega

theorem popN_pops_prefix (d : Direction) :
    ∀ (n : Nat) (streams : List (String × List Entry)),
      ((streams.map (fun p => p.1)).Nodup) → ∀ (k : String),
      ∃ t, popsFor k (popN d n streams) ++ t = entriesFor k streams := by
  intro n
  induction n with
  | zero =>
    intro streams _ k
    exact ⟨entriesFor k streams, by simp [popN, popsFor]⟩
  | succ n ih =>
    intro streams hnod k
    cases hsel : selectBest d streams with
    | none =>
      rw [popN, hsel]
      exact ⟨entriesFor k streams, by simp [popsFor]⟩
    | some pr =>
      obtain ⟨⟨k0, e0⟩, rest2⟩ := pr
      obtain ⟨c1, c2, c3, c4, c5⟩ := selectBest_some d streams rest2 k0 e0 hnod hsel
      obtain ⟨t, ht⟩ := ih rest2 (hnod.sublist c3) k
      rw [popN, hsel]
      show ∃ t, popsFor k ((k0, e0) :: popN d n rest2) ++ t = entriesFor k streams
      by_cases hk : k0 = k
      · subst hk
        refine ⟨t, ?_⟩
        rw [popsFor_cons, if_pos (beq_self_eq_true k0), List.cons_append, ht, c4]
      · refine ⟨t, ?_⟩
        rw [popsFor_cons, if_neg (by simp [hk]), ht, c5 k (fun hc => hk hc.symm)]

theorem popN_labels (d : Direction) :
    ∀ (n : Nat) (streams : List (String × List Entry)),
      ((streams.map (fun p => p.1)).Nodup) →
      ∀ p ∈ popN d n streams, p.1 ∈ streams.map (fun q => q.1) := by
  intro n
  induction n with
  | zero => intro streams _ p hp; simp [popN] at hp
  | succ n ih =>
    intro streams hnod p hp
    cases hsel : selectBest d streams with
    | none =>
      rw [popN, hsel] at hp
      simp at hp
    | some pr =>
      obtain ⟨⟨k0, e0⟩, rest2⟩ := pr
      obtain ⟨c1, c2, c3, c4, c5⟩ := selectBest_some d streams rest2 k0 e0 hnod hsel
      rw [popN, hsel] at hp
      have hp2 : p ∈ ((k0, e0) :: popN d n rest2) := hp
      rcases List.mem_cons.mp hp2 with rfl | hmem
      · exact c2
      · exact c3.subset (ih rest2 (hnod.sublist c3) p hmem)

theorem sum_map_add (f g : String → Nat) (ks : List String) :
    (ks.map (fun k => f k + g k)).sum = (ks.map f).sum + (ks.map g).sum := by
  induction ks with
  | nil => rfl
  | cons k kt ih => simp only [List.map_cons, List.sum_cons, ih]; omega

theorem sum_ite_zero (p1 : String) (ks : List String) (h : p1 ∉ ks) :
    (ks.map (fun k => if (p1 == k) = true then 1 else 0)).sum = 0 := by
  induction ks with
  | nil => rfl
  | cons k kt ih =>
    rw [List.map_cons, List.sum_cons]
    have hne : (p1 == k) = false := beq_eq_false_iff_ne.mpr
      (fun hc => h (hc ▸ List.mem_cons_self _ _))
    rw [hne]
    simp only [Bool.false_eq_true, if_false]
    rw [ih (fun hc => h (List.mem_cons_of_mem _ hc))]

theorem sum_ite_one (p1 : String) (ks : List String) (hnod : ks.Nodup) (h : p1 ∈ ks) :
    (ks.map (fun k => if (p1 == k) = true then 1 else 0)).sum = 1 := by
  induction ks with
  | nil => simp at h
  | cons k kt ih =>
    rw [List.nodup_cons] at hnod
    rw [List.map_cons, List.sum_cons]
    by_cases hk : p1 = k
    · rw [if_pos (beq_iff_eq.mpr hk)]
      rw [sum_ite_zero p1 kt (hk ▸ hnod.1)]
    · have hne : (p1 == k) = false := beq_eq_false_iff_ne.mpr hk
      rw [hne]
      simp only [Bool.false_eq_true, if_false]
      rcases List.mem_cons.mp h with hc | hmem
      · exact absurd hc hk
      · rw [ih hnod.2 hmem]

theorem len_filter_cons {α : Type} (f : α → Bool) (p : α) (ps : List α) :
    (List.filter f (p :: ps)).length =
      (if f p = true then 1 else 0) + (List.filter f ps).length := by
  rw [List.filter_cons]
  split
  · simp
    omega
  · simp

theorem popsFor_length (k : String) (pops : List (String × Entry)) :
    (popsFor k pops).length = (pops.filter (fun p => p.1 == k)).length := by
  simp [popsFor]

theorem count_partition (keys : List String) (hnod : keys.Nodup) :
    ∀ pops : List (String × Entry), (∀ p ∈ pops, p.1 ∈ keys) →
    (keys.map (fun k => (popsFor k pops).length)).sum = pops.length := by
  intro pops
  induction pops with
  | nil =>
    intro _
    have hz : (keys.map (fun k => (popsFor k ([] : List (String × Entry))).length)) =
        keys.map (fun _ => 0) := by
      apply List.map_congr_left
      intro k _
      simp [popsFor]
    rw [hz]
    simp
  | cons p ps ih =>
    intro hsub
    have hstep : (keys.map (fun k => (popsFor k (p :: ps)).length)) =
        keys.map (fun k => (if (p.1 == k) = true then 1 else 0) + (popsFor k ps).length) := by
      apply List.map_congr_left
      intro k _
      rw [popsFor_length, len_filter_cons, popsFor_length]
    rw [hstep, sum_map_add (fun k => if (p.1 == k) = true then 1 else 0)
      (fun k => (popsFor k ps).length) keys]
    rw [sum_ite_one p.1 keys hnod (hsub p (List.mem_cons_self _ _)),
      ih (fun q hq => hsub q (List.mem_cons_of_mem _ hq))]
    simp
    omega

theorem heapStreams_cons (d : Direction) (g : Groups) (k : String) (ks : List String) :
    heapStreams d g (k :: ks) =
      if (byDirMerge d (lookupMarkers g k)).isEmpty then heapStreams d g ks
      else (k, byDirMerge d (lookupMarkers g k)) :: heapStreams d g ks := by
  rw [heapStreams, List.filterMap_cons]
  by_cases hb : (byDirMerge d (lookupMarkers g k)).isEmpty = true
  · simp only [hb, if_true]
    rfl
  · simp only [hb]
    rfl

theorem heapStreams_fst_sublist (d : Direction) (g : Groups) :
    ∀ keys, ((heapStreams d g keys).map (fun p => p.1)).Sublist keys := by
  intro keys
  induction keys with
  | nil => simp [heapStreams]
  | cons k ks ih =>
    rw [heapStreams_cons]
    by_cases hb : (byDirMerge d (lookupMarkers g k)).isEmpty = true
    · rw [if_pos hb]
      exact ih.cons k
    · rw [if_neg hb, List.map_cons]
      exact List.Sublist.cons₂ k ih

theorem heapStreams_entriesFor_not_mem (d : Direction) (g : Groups) :
    ∀ keys (k : String), k ∉ keys → entriesFor k (heapStreams d g keys) = [] := by
  intro keys
  induction keys with
  | nil => intro k _; rfl
  | cons k0 ks ih =>
    intro k hk
    have hk0 : k0 ≠ k := fun hc => hk (hc ▸ List.mem_cons_self _ _)
    have hks : k ∉ ks := fun hc => hk (List.mem_cons_of_mem _ hc)
    rw [heapStreams_cons]
    by_cases hb : (byDirMerge d (lookupMarkers g k0)).isEmpty = true
    · rw [if_pos hb]
      exact ih k hks
    · rw [if_neg hb, entriesFor_cons, if_neg (by simp [hk0])]
      exact ih k hks

theorem heapStreams_entriesFor (d : Direction) (g : Groups) :
    ∀ keys (k : String), keys.Nodup → k ∈ keys →
      entriesFor k (heapStreams d g keys) = byDirMerge d (lookupMarkers g k) := by
  intro keys
  induction keys with
  | nil => intro k _ hk; simp at hk
  | cons k0 ks ih =>
    intro k hnod hk
    rw [List.nodup_cons] at hnod
    rw [heapStreams_cons]
    by_cases hkk : k = k0
    · subst hkk
      by_cases hb : (byDirMerge d (lookupMarkers g k)).isEmpty = true
      · rw [if_pos hb, heapStreams_entriesFor_not_mem d g ks k hnod.1]
        rw [List.isEmpty_iff] at hb
        rw [hb]
      · rw [if_neg hb, entriesFor_cons, if_pos (beq_self_eq_true k),
          heapStreams_entriesFor_not_mem d g ks k hnod.1]
        simp
    · have hmem : k ∈ ks := by
        rcases List.mem_cons.mp hk with hc | hmem
        · exact absurd hc hkk
        · exact hmem
      by_cases hb : (byDirMerge d (lookupMarkers g k0)).isEmpty = true
      · rw [if_pos hb]
        exact ih k hnod.2 hmem
      · rw [if_neg hb, entriesFor_cons, if_neg (by simp [Ne.symm hkk])]
        exact ih k hnod.2 hmem

theorem heapStreams_total (d : Direction) (g : Groups) :
    ∀ keys, totalStreams (heapStreams d g keys) =
      (keys.map (fun k => (byDirMerge d (lookupMarkers g k)).length)).sum := by
  intro keys
  induction keys with
  | nil => rfl
  | cons k ks ih =>
    rw [heapStreams_cons, List.map_cons, List.sum_cons]
    by_cases hb : (byDirMerge d (lookupMarkers g k)).isEmpty = true
    · rw [if_pos hb, ih]
      rw [List.isEmpty_iff] at hb
      rw [hb]
      simp
    · rw [if_neg hb, totalStreams_cons, ih]

theorem emitPops_cons (pops : List (String × Entry)) (k : String)
    (ks : List String) :
    emitPops (k :: ks) pops =
      if (popsFor k pops).isEmpty then emitPops ks pops
      else (⟨k, popsFor k pops⟩ : Stream) :: emitPops ks pops := by
  rw [emitPops, List.filterMap_cons]
  by_cases hb : (popsFor k pops).isEmpty = true
  · simp only [hb, if_true]
    rfl
  · simp only [hb]
    rfl

theorem emitPops_sum (pops : List (String × Entry)) :
    ∀ keys, streamsSum (emitPops keys pops) =
      (keys.map (fun k => (popsFor k pops).length)).sum := by
  intro keys
  induction keys with
  | nil => rfl
  | cons k ks ih =>
    rw [emitPops_cons pops, List.map_cons, List.sum_cons]
    by_cases hb : (popsFor k pops).isEmpty = true
    · rw [if_pos hb, ih]
      rw [List.isEmpty_iff] at hb
      rw [hb]
      simp
    · rw [if_neg hb]
      simp only [streamsSum, List.map_cons, List.sum_cons]
      rw [show ((⟨k, popsFor k pops⟩ : Stream).entries.length) = (popsFor k pops).length
        from rfl]
      simp only [streamsSum] at ih
      rw [ih]

theorem emitPops_mem (keys : List String) (pops : List (String × Entry)) (s : Stream)
    (hs : s ∈ emitPops keys pops) : ∃ k, k ∈ keys ∧ s = ⟨k, popsFor k pops⟩ := by
  rw [emitPops] at hs
  obtain ⟨k, hk, hsome⟩ := List.mem_filterMap.mp hs
  refine ⟨k, hk, ?_⟩
  by_cases hb : (popsFor k pops).isEmpty = true
  · simp only [hb, if_true] at hsome
    cases hsome
  · simp only [hb, Bool.false_eq_true, if_false, Option.some.injEq] at hsome
    exact hsome.symm

theorem sortKeys_perm (d : Direction) (l : List String) : (sortKeys d l).Perm l := by
  cases d <;> exact List.perm_insertionSort _ _

theorem sortedBy_append_left (le : Entry → Entry → Bool) (l t : List Entry)
    (h : SortedBy le (l ++ t)) : SortedBy le l :=
  h.sublist (List.sublist_append_left l t)

/-- The emission phase: the emitted total is `min limit total` and every
emitted stream is sorted for the direction. -/
theorem mergeEmit_spec (d : Direction) (g : Groups) (total limit : Nat)
    (hnodg : (g.map (fun p => p.1)).Nodup) (hWF : GroupsWF d g)
    (ht : total = groupsTotal g) :
    streamsSum (mergeEmit d g total limit) = min limit total ∧
    ∀ s ∈ mergeEmit d g total limit, SortedBy (entryLE d) s.entries := by
  have hperm := sortKeys_perm d (g.map (fun p => p.1))
  have hknod : (sortKeys d (g.map (fun p => p.1))).Nodup := hperm.nodup_iff.mpr hnodg
  have hsum : ((sortKeys d (g.map (fun p => p.1))).map
      (fun k => (byDirMerge d (lookupMarkers g k)).length)).sum = groupsTotal g := by
    rw [(hperm.map (fun k => (byDirMerge d (lookupMarkers g k)).length)).sum_eq]
    have hpt : (g.map (fun p => p.1)).map
        (fun k => (byDirMerge d (lookupMarkers g k)).length) =
      (g.map (fun p => p.1)).map
        (fun k => ((lookupMarkers g k).map List.length).sum) := by
      apply List.map_congr_left
      intro k _
      rw [byDirMerge_length]
    rw [hpt, lookup_map_sum (fun ms => (ms.map List.length).sum) g hnodg]
    rfl
  by_cases hcase : total ≤ limit
  · have hout : mergeEmit d g total limit =
        (sortKeys d (g.map (fun p => p.1))).map
          (fun k => ⟨k, byDirMerge d (lookupMarkers g k)⟩) := by
      rw [mergeEmit, if_pos hcase]
    constructor
    · rw [hout, streamsSum, List.map_map]
      rw [show ((fun s => s.entries.length) ∘
          (fun k => (⟨k, byDirMerge d (lookupMarkers g k)⟩ : Stream))) =
        (fun k => (byDirMerge d (lookupMarkers g k)).length) from rfl]
      rw [hsum, ← ht, Nat.min_eq_right hcase]
    · intro s hs
      rw [hout] at hs
      obtain ⟨k, _, hk⟩ := List.mem_map.mp hs
      rw [← hk]
      exact byDirMerge_sorted d (lookupMarkers g k) (lookup_WF d g hWF k)
  · have hout : mergeEmit d g total limit =
        emitPops (sortKeys d (g.map (fun p => p.1)))
          (popN d limit (heapStreams d g (sortKeys d (g.map (fun p => p.1))))) := by
      rw [mergeEmit, if_neg hcase]
    have hnodS : ((heapStreams d g (sortKeys d (g.map (fun p => p.1)))).map
        (fun p => p.1)).Nodup :=
      hknod.sublist (heapStreams_fst_sublist d g _)
    have htotS : totalStreams (heapStreams d g (sortKeys d (g.map (fun p => p.1)))) =
        groupsTotal g := by
      rw [heapStreams_total, hsum]
    have hlabels : ∀ p ∈ popN d limit (heapStreams d g (sortKeys d (g.map (fun p => p.1)))),
        p.1 ∈ sortKeys d (g.map (fun p => p.1)) := by
      intro p hp
      exact (heapStreams_fst_sublist d g _).subset
        (popN_labels d limit _ hnodS p hp)
    constructor
    · rw [hout, emitPops_sum, count_partition _ hknod _ hlabels,
        popN_length d limit _ hnodS, htotS, ← ht]
    · intro s hs
      rw [hout] at hs
      obtain ⟨k, hk, hsk⟩ := emitPops_mem _ _ s hs
      obtain ⟨t, htp⟩ := popN_pops_prefix d limit _ hnodS k
      have hent : entriesFor k (heapStreams d g (sortKeys d (g.map (fun p => p.1)))) =
          byDirMerge d (lookupMarkers g k) :=
        heapStreams_entriesFor d g _ k hknod hk
      have hsorted2 : SortedBy (entryLE d)
          (popsFor k (popN d limit (heapStreams d g (sortKeys d (g.map (fun p => p.1)))))) := by
        apply sortedBy_append_left (entryLE d) _ t
        rw [htp, hent]
        exact byDirMerge_sorted d (lookupMarkers g k) (lookup_WF d g hWF k)
      rw [hsk]
      exact hsorted2

/-- Two streams cover disjoint time ranges. -/
abbrev StreamsDisjoint (s1 s2 : Stream) : Prop :=
  (∀ e1 ∈ s1.entries, ∀ e2 ∈ s2.entries, e1.ts < e2.ts) ∨
  (∀ e1 ∈ s1.entries, ∀ e2 ∈ s2.entries, e2.ts < e1.ts)

/-- Across all input responses, streams sharing a label string are
pairwise non-overlapping in time. -/
abbrev NonOverlap (resps : List LokiResponse) : Prop :=
  List.Pairwise (fun s1 s2 => s1.labels = s2.labels → StreamsDisjoint s1 s2)
    ((resps.map (fun r => r.result)).flatten)

/-- C1: for responses whose streams are each internally sorted for the
shared direction and pairwise non-overlapping in time per label string,
`mergeOrderedNonOverlappingStreams(resps, limit, direction)` returns
streams whose total entry count is `min(limit, Σ |resps[i].entries|)`,
and within each output label the entries are sorted for the
direction. -/
theorem c1_merge_ordered_streams (resps : List LokiResponse) (limit : Nat) (d : Direction)
    (hsorted : ∀ r ∈ resps, ∀ s ∈ r.result, SortedBy (entryLE d) s.entries)
    (hnov : NonOverlap resps) :
    streamsSum (mergeOrderedNonOverlappingStreams resps limit d) =
      min limit (respsSum resps) ∧
    ∀ s ∈ mergeOrderedNonOverlappingStreams resps limit d,
      SortedBy (entryLE d) s.entries := by
  obtain ⟨h1, h2, h3, h4⟩ := ingest_spec limit resps [] 0 (by simp [groupsTotal])
  obtain ⟨e1, e2⟩ := mergeEmit_spec d (ingest limit resps ([], 0)).1
    (ingest limit resps ([], 0)).2 limit (h3 (by simp))
    (h4 d (by intro p hp; simp at hp) hsorted) h1
  constructor
  · show streamsSum (mergeEmit d (ingest limit resps ([], 0)).1
        (ingest limit resps ([], 0)).2 limit) = min limit (respsSum resps)
    rw [e1, h2]
    simp
  · intro s hs
    exact e2 s hs

/-- C1 witness: the spec's range-split scenario — two backward
responses for one label, `limit = 3` — merges to three entries, the
minimum of the limit and the four available entries, sorted
descending. -/
theorem c1_merge_ordered_streams_witness :
    streamsSum (mergeOrderedNonOverlappingStreams
        [⟨"success", Direction.BACKWARD, 3, 1, "", "", "streams",
            [⟨"s", [⟨10, "a"⟩, ⟨9, "b"⟩]⟩]⟩,
          ⟨"success", Direction.BACKWARD, 3, 1, "", "", "streams",
            [⟨"s", [⟨8, "c"⟩, ⟨7, "d"⟩]⟩]⟩] 3 Direction.BACKWARD) =
      min 3 (respsSum
        [⟨"success", Direction.BACKWARD, 3, 1, "", "", "streams",
            [⟨"s", [⟨10, "a"⟩, ⟨9, "b"⟩]⟩]⟩,
          ⟨"success", Direction.BACKWARD, 3, 1, "", "", "streams",
            [⟨"s", [⟨8, "c"⟩, ⟨7, "d"⟩]⟩]⟩]) :=
  (c1_merge_ordered_streams
    [⟨"success", Direction.BACKWARD, 3, 1, "", "", "streams",
        [⟨"s", [⟨10, "a"⟩, ⟨9, "b"⟩]⟩]⟩,
      ⟨"success", Direction.BACKWARD, 3, 1, "", "", "streams",
        [⟨"s", [⟨8, "c"⟩, ⟨7, "d"⟩]⟩]⟩] 3 Direction.BACKWARD
    (by decide) (by decide)).1

/-! ## Request codec (codec.go, `EncodeRequest` / `DecodeRequest`)

The wire form is modelled at the form level: a path plus a multimap of
query parameters (`url.Values`), which is what `EncodeRequest` builds
and what `ParseForm` hands to the parsers — percent-encoding is a
bijection between the two HTTP layers and is not modelled.  The
`loghttp`/`logql` request parsers and `getOperation` live outside the
packaged sources and are modelled from the spec: path-suffix dispatch;
`start`/`end`/`time` in nanoseconds; `step` in float seconds (rendered
by `%f` with six decimals); `limit` integer; `direction`
FORWARD|BACKWARD; repeated `shards`/`match[]`; absent optional
parameters default (direction BACKWARD, limit 100, step 0). -/

/-- Query parameters: a multimap in insertion order. -/
abbrev Params := List (String × List String)

/-- An HTTP request at the form level. -/
structure HttpReq where
  path : String
  params : Params
deriving DecidableEq, Repr

/-- All values of a parameter (empty when absent). -/
def lookupVals : Params → String → List String
  | [], _ => []
  | (k0, vs) :: rest, k => if k0 = k then vs else lookupVals rest k

/-- The first value of a parameter. -/
def lookupFirst (ps : Params) (k : String) : Option String :=
  match lookupVals ps k with
  | [] => none
  | v :: _ => some v

/-- The six-decimal fractional part of `%f`, for `us < 10^6`. -/
def renderStepFrac (us : Nat) : String :=
  String.mk [digitOf (us / 100000 % 10), digitOf (us / 10000 % 10),
    digitOf (us / 1000 % 10), digitOf (us / 100 % 10), digitOf (us / 10 % 10),
    digitOf (us % 10)]

/-- `fmt.Sprintf("%f", float64(ms)/float64(1e3))` for `ms ≥ 0`: the step
in seconds, six decimals.  A millisecond count has only three decimals,
so the conversion is exact. -/
def renderStepSecondsNat (ms : Nat) : String :=
  renderNat (ms * 1000 / 1000000) ++ "." ++ renderStepFrac (ms * 1000 % 1000000)

/-- The step parameter rendering (negative steps get a sign). -/
def renderStepSeconds (stepMs : Int) : String :=
  if stepMs < 0 then "-" ++ renderStepSecondsNat stepMs.natAbs
  else renderStepSecondsNat stepMs.toNat

/-- Split a character list at the first dot. -/
def splitDot : List Char → List Char × Option (List Char)
  | [] => ([], none)
  | c :: cs =>
    if c = '.' then ([], some cs)
    else ((splitDot cs).1.cons c, (splitDot cs).2)

/-- Modelled from the spec: parse an unsigned decimal-seconds string
into milliseconds (via microseconds, truncating). -/
def parseStepChars (cs : List Char) : Option Nat :=
  match splitDot cs with
  | (ip, fp) =>
    if ip.isEmpty then none
    else
      (parseNatGo 0 ip).bind (fun i =>
        let fd := (fp.getD []).take 6
        let f6 := fd ++ List.replicate (6 - fd.length) '0'
        (parseNatGo 0 f6).map (fun f => (i * 1000000 + f) / 1000))

/-- Modelled from the spec: the `step` parameter, float seconds,
stored as milliseconds. -/
def parseStepMs (s : String) : Option Int :=
  match s.data with
  | [] => none
  | c :: cs =>
    if c = '-' then (parseStepChars cs).map (fun n => -(n : Int))
    else (parseStepChars (c :: cs)).map Int.ofNat

/-- Modelled from the spec: the `direction` parameter. -/
def parseDirection (s : String) : Option Direction :=
  if s = "FORWARD" then some .FORWARD
  else if s = "BACKWARD" then some .BACKWARD
  else none

/-- The request operation selected by the URL path. -/
inductive Op
  | rangeOp
  | instantOp
  | seriesOp
  | labelsOp
  | unknownOp
deriving DecidableEq, Repr

/-- Suffix test on strings. -/
def strEndsWith (s suffixStr : String) : Bool :=
  List.isSuffixOf suffixStr.data s.data

/-- Modelled from the spec: `getOperation` — dispatch on the URL path
suffix (`…/query_range`, `…/query`, `…/series`, `…/labels`). -/
def getOperation (path : String) : Op :=
  if strEndsWith path "/query_range" then .rangeOp
  else if strEndsWith path "/query" then .instantOp
  else if strEndsWith path "/series" then .seriesOp
  else if strEndsWith path "/labels" then .labelsOp
  else .unknownOp

/-- `EncodeRequest`: GET requests to the canonical v1 paths;
`start`/`end`/`time` in nanoseconds, `step` in float seconds (only when
non-zero), `shards` only when non-empty. -/
def encodeRequest : Request → HttpReq
  | .range r =>
    let base : Params := [("start", [renderInt r.startNs]), ("end", [renderInt r.endNs]),
      ("query", [r.query]), ("direction", [r.direction.str]),
      ("limit", [renderNat r.limit])]
    let p2 := if r.shards.isEmpty then base else base ++ [("shards", r.shards)]
    let p3 := if r.stepMs = 0 then p2 else p2 ++ [("step", [renderStepSeconds r.stepMs])]
    ⟨"/loki/api/v1/query_range", p3⟩
  | .series r =>
    let base : Params := [("start", [renderInt r.startNs]), ("end", [renderInt r.endNs]),
      ("match[]", r.matchGroups)]
    let p2 := if r.shards.isEmpty then base else base ++ [("shards", r.shards)]
    ⟨"/loki/api/v1/series", p2⟩
  | .labelNames r =>
    ⟨"/loki/api/v1/labels",
      [("start", [renderInt r.startNs]), ("end", [renderInt r.endNs])]⟩
  | .instant r =>
    let base : Params := [("query", [r.query]), ("direction", [r.direction.str]),
      ("limit", [renderNat r.limit]), ("time", [renderInt r.timeNs])]
    let p2 := if r.shards.isEmpty then base else base ++ [("shards", r.shards)]
    ⟨"/loki/api/v1/query", p2⟩

/-- Fail with BadRequest when a wire value is absent or unparsable. -/
def req? {α : Type} (o : Option α) (f : α → Except QErr Request) : Except QErr Request :=
  match o with
  | none => .error .badRequest
  | some a => f a

/-- Modelled from the spec: `loghttp.ParseRangeQuery`. -/
def decodeRange (h : HttpReq) : Except QErr Request :=
  req? (lookupFirst h.params "start") fun ss =>
  req? (parseInt ss) fun sNs =>
  req? (lookupFirst h.params "end") fun es =>
  req? (parseInt es) fun eNs =>
  req? (match lookupFirst h.params "direction" with
        | none => some Direction.BACKWARD
        | some ds => parseDirection ds) fun dir =>
  req? (match lookupFirst h.params "limit" with
        | none => some 100
        | some ls => parseNat ls) fun lim =>
  req? (match lookupFirst h.params "step" with
        | none => some (0 : Int)
        | some sts => parseStepMs sts) fun stepMs =>
  .ok (.range ⟨(lookupFirst h.params "query").getD "", lim, dir, sNs, eNs, stepMs,
    h.path, lookupVals h.params "shards"⟩)

/-- Modelled from the spec: `loghttp.ParseInstantQuery`. -/
def decodeInstant (h : HttpReq) : Except QErr Request :=
  req? (lookupFirst h.params "time") fun ts =>
  req? (parseInt ts) fun tNs =>
  req? (match lookupFirst h.params "direction" with
        | none => some Direction.BACKWARD
        | some ds => parseDirection ds) fun dir =>
  req? (match lookupFirst h.params "limit" with
        | none => some 100
        | some ls => parseNat ls) fun lim =>
  .ok (.instant ⟨(lookupFirst h.params "query").getD "", lim, dir, tNs, h.path,
    lookupVals h.params "shards"⟩)

/-- Modelled from the spec: `logql.ParseAndValidateSeriesQuery`. -/
def decodeSeries (h : HttpReq) : Except QErr Request :=
  req? (lookupFirst h.params "start") fun ss =>
  req? (parseInt ss) fun sNs =>
  req? (lookupFirst h.params "end") fun es =>
  req? (parseInt es) fun eNs =>
  .ok (.series ⟨lookupVals h.params "match[]", sNs, eNs, h.path,
    lookupVals h.params "shards"⟩)

/-- Modelled from the spec: `loghttp.ParseLabelQuery`. -/
def decodeLabels (h : HttpReq) : Except QErr Request :=
  req? (lookupFirst h.params "start") fun ss =>
  req? (parseInt ss) fun sNs =>
  req? (lookupFirst h.params "end") fun es =>
  req? (parseInt es) fun eNs =>
  .ok (.labelNames ⟨sNs, eNs, h.path⟩)

/-- `DecodeRequest`: dispatch on the path, BadRequest on unknown. -/
def decodeRequest (h : HttpReq) : Except QErr Request :=
  match getOperation h.path with
  | .rangeOp => decodeRange h
  | .instantOp => decodeInstant h
  | .seriesOp => decodeSeries h
  | .labelsOp => decodeLabels h
  | .unknownOp => .error .badRequest

/-- The canonical v1 path of each request variant. -/
def canonicalPath : Request → String
  | .range _ => "/loki/api/v1/query_range"
  | .instant _ => "/loki/api/v1/query"
  | .series _ => "/loki/api/v1/series"
  | .labelNames _ => "/loki/api/v1/labels"

/-- A request with its path replaced by the canonical v1 path. -/
def canonicalize : Request → Request
  | .range r => .range { r with path := "/loki/api/v1/query_range" }
  | .instant r => .instant { r with path := "/loki/api/v1/query" }
  | .series r => .series { r with path := "/loki/api/v1/series" }
  | .labelNames r => .labelNames { r with path := "/loki/api/v1/labels" }

theorem digitOf_ne_dot (d : Nat) (h : d < 10) : digitOf d ≠ '.' := by
  interval_cases d <;> decide

theorem digitVal_digitOf_mod (n : Nat) : digitVal (digitOf (n % 10)) = some (n % 10) :=
  digitVal_digitOf _ (Nat.mod_lt _ (by omega))

theorem splitDot_append (l1 l2 : List Char) (h : ∀ c ∈ l1, c ≠ '.') :
    splitDot (l1 ++ '.' :: l2) = (l1, some l2) := by
  induction l1 with
  | nil => simp [splitDot]
  | cons c cs ih =>
    rw [List.cons_append, splitDot,
      if_neg (h c (List.mem_cons_self _ _)),
      ih (fun x hx => h x (List.mem_cons_of_mem _ hx))]

theorem parseDirection_str (d : Direction) : parseDirection d.str = some d := by
  cases d <;> rfl

theorem renderStepSecondsNat_data (ms : Nat) :
    (renderStepSecondsNat ms).data =
      natDigitsFuel (ms * 1000 / 1000000 + 1) (ms * 1000 / 1000000) ++ '.' ::
        [digitOf (ms * 1000 % 1000000 / 100000 % 10),
          digitOf (ms * 1000 % 1000000 / 10000 % 10),
          digitOf (ms * 1000 % 1000000 / 1000 % 10),
          digitOf (ms * 1000 % 1000000 / 100 % 10),
          digitOf (ms * 1000 % 1000000 / 10 % 10),
          digitOf (ms * 1000 % 1000000 % 10)] := by
  rw [renderStepSecondsNat, renderNat, renderStepFrac]
  rw [String.data_append, String.data_append]
  simp

theorem pad6_take (a b c d e f : Char) :
    List.take 6 [a, b, c, d, e, f] ++
      List.replicate (6 - (List.take 6 ([a, b, c, d, e, f] : List Char)).length) '0' =
    [a, b, c, d, e, f] := rfl

theorem parseStepChars_render (ms : Nat) :
    parseStepChars (renderStepSecondsNat ms).data = some ms := by
  have hq : ms * 1000 / 1000000 < ms * 1000 / 1000000 + 1 := by omega
  have hne := natDigitsFuel_ne_nil _ _ hq
  have hip := parseNatGo_natDigits (ms * 1000 / 1000000) 0
  have hsplit := splitDot_append
    (natDigitsFuel (ms * 1000 / 1000000 + 1) (ms * 1000 / 1000000))
    [digitOf (ms * 1000 % 1000000 / 100000 % 10),
      digitOf (ms * 1000 % 1000000 / 10000 % 10),
      digitOf (ms * 1000 % 1000000 / 1000 % 10),
      digitOf (ms * 1000 % 1000000 / 100 % 10),
      digitOf (ms * 1000 % 1000000 / 10 % 10),
      digitOf (ms * 1000 % 1000000 % 10)]
    (by
      intro c hc
      obtain ⟨d, hd10, rfl⟩ := natDigitsFuel_mem _ _ hc
      exact digitOf_ne_dot d hd10)
  rw [renderStepSecondsNat_data ms]
  simp only [parseStepChars, hsplit, List.isEmpty_iff]
  rw [if_neg hne, hip]
  simp only [zero_mul, zero_add, Option.some_bind, Option.getD_some]
  rw [pad6_take]
  simp only [parseNatGo, digitVal_digitOf_mod]
  have hmap : ∀ (g : Nat → Nat) (x : Nat), Option.map g (some x) = some (g x) :=
    fun g x => rfl
  rw [hmap]
  congr 1
  generalize ha : ms * 1000 % 1000000 = a
  omega

theorem renderStepSecondsNat_head (m : Nat) :
    ∃ c cs, (renderStepSecondsNat m).data = c :: cs ∧ c ≠ '-' := by
  have hq : m * 1000 / 1000000 < m * 1000 / 1000000 + 1 := by omega
  have hne := natDigitsFuel_ne_nil _ _ hq
  have hdata := renderStepSecondsNat_data m
  cases hds : natDigitsFuel (m * 1000 / 1000000 + 1) (m * 1000 / 1000000) with
  | nil => exact absurd hds hne
  | cons c cs0 =>
    rw [hds, List.cons_append] at hdata
    refine ⟨c, _, hdata, ?_⟩
    obtain ⟨d, hd10, rfl⟩ := natDigitsFuel_mem _ _
      (show c ∈ natDigitsFuel (m * 1000 / 1000000 + 1) (m * 1000 / 1000000) by
        rw [hds]; exact List.mem_cons_self _ _)
    exact digitOf_ne_dash d hd10

theorem parseStepMs_render (ms : Int) (h : 0 ≤ ms) :
    parseStepMs (renderStepSeconds ms) = some ms := by
  rw [renderStepSeconds, if_neg (not_lt.mpr h)]
  obtain ⟨c, cs, hd, hcd⟩ := renderStepSecondsNat_head ms.toNat
  have hmain := parseStepChars_render ms.toNat
  rw [hd] at hmain
  rw [parseStepMs, hd]
  show (if c = '-' then (parseStepChars cs).map (fun n => -(n : Int))
    else (parseStepChars (c :: cs)).map Int.ofNat) = some ms
  rw [if_neg hcd, hmain]
  simp [Int.toNat_of_nonneg h]

/-- C3 (amended): decoding an encoded typed request restores every
semantic field — query, time range (exactly, in nanoseconds, hence in
milliseconds), limit, direction, shards, matchers, and even the step —
while the path is replaced by the canonical v1 path of the variant
(equal to the original whenever it was already canonical).  The step
must be non-negative, as the spec's data model requires
(`step_ms ≥ 0`). -/
theorem c3_encode_decode (r : Request) (hstep : 0 ≤ r.getStep) :
    decodeRequest (encodeRequest r) = .ok (canonicalize r) := by
  cases r with
  | range q =>
    obtain ⟨qq, ql, qd, qs, qe, qst, qp, qsh⟩ := q
    simp only [Request.getStep] at hstep
    by_cases hst : qst = 0
    · subst hst
      cases hq : qsh.isEmpty with
      | true =>
        rw [List.isEmpty_iff.mp hq]
        have hdec : decodeRequest (encodeRequest
            (.range ⟨qq, ql, qd, qs, qe, 0, qp, []⟩)) =
          req? (parseInt (renderInt qs)) (fun s2 =>
          req? (parseInt (renderInt qe)) (fun e2 =>
          req? (parseDirection qd.str) (fun dir2 =>
          req? (parseNat (renderNat ql)) (fun lim2 =>
          .ok (.range ⟨qq, lim2, dir2, s2, e2, 0, "/loki/api/v1/query_range", []⟩))))) := rfl
        rw [hdec, parseInt_renderInt, parseInt_renderInt, parseDirection_str,
          parseNat_renderNat]
        simp only [req?]
        rfl
      | false =>
        have henc : encodeRequest (.range ⟨qq, ql, qd, qs, qe, 0, qp, qsh⟩) =
            ⟨"/loki/api/v1/query_range",
              [("start", [renderInt qs]), ("end", [renderInt qe]), ("query", [qq]),
                ("direction", [qd.str]), ("limit", [renderNat ql])] ++
                [("shards", qsh)]⟩ := by
          simp only [encodeRequest, hq]
          rfl
        rw [henc]
        have hdec : decodeRequest (⟨"/loki/api/v1/query_range",
            [("start", [renderInt qs]), ("end", [renderInt qe]), ("query", [qq]),
              ("direction", [qd.str]), ("limit", [renderNat ql])] ++
              [("shards", qsh)]⟩ : HttpReq) =
          req? (parseInt (renderInt qs)) (fun s2 =>
          req? (parseInt (renderInt qe)) (fun e2 =>
          req? (parseDirection qd.str) (fun dir2 =>
          req? (parseNat (renderNat ql)) (fun lim2 =>
          .ok (.range ⟨qq, lim2, dir2, s2, e2, 0, "/loki/api/v1/query_range",
            qsh⟩))))) := rfl
        rw [hdec, parseInt_renderInt, parseInt_renderInt, parseDirection_str,
          parseNat_renderNat]
        simp only [req?]
        rfl
    · cases hq : qsh.isEmpty with
      | true =>
        rw [List.isEmpty_iff.mp hq]
        have henc : encodeRequest (.range ⟨qq, ql, qd, qs, qe, qst, qp, []⟩) =
            ⟨"/loki/api/v1/query_range",
              [("start", [renderInt qs]), ("end", [renderInt qe]), ("query", [qq]),
                ("direction", [qd.str]), ("limit", [renderNat ql])] ++
                [("step", [renderStepSeconds qst])]⟩ := by
          simp only [encodeRequest, if_neg hst]
          rfl
        rw [henc]
        have hdec : decodeRequest (⟨"/loki/api/v1/query_range",
            [("start", [renderInt qs]), ("end", [renderInt qe]), ("query", [qq]),
              ("direction", [qd.str]), ("limit", [renderNat ql])] ++
              [("step", [renderStepSeconds qst])]⟩ : HttpReq) =
          req? (parseInt (renderInt qs)) (fun s2 =>
          req? (parseInt (renderInt qe)) (fun e2 =>
          req? (parseDirection qd.str) (fun dir2 =>
          req? (parseNat (renderNat ql)) (fun lim2 =>
          req? (parseStepMs (renderStepSeconds qst)) (fun st2 =>
          .ok (.range ⟨qq, lim2, dir2, s2, e2, st2, "/loki/api/v1/query_range",
            []⟩)))))) := rfl
        rw [hdec, parseInt_renderInt, parseInt_renderInt, parseDirection_str,
          parseNat_renderNat, parseStepMs_render qst hstep]
        simp only [req?]
        rfl
      | false =>
        have henc : encodeRequest (.range ⟨qq, ql, qd, qs, qe, qst, qp, qsh⟩) =
            ⟨"/loki/api/v1/query_range",
              [("start", [renderInt qs]), ("end", [renderInt qe]), ("query", [qq]),
                ("direction", [qd.str]), ("limit", [renderNat ql])] ++
                [("shards", qsh)] ++ [("step", [renderStepSeconds qst])]⟩ := by
          simp only [encodeRequest, hq, if_neg hst]
          rfl
        rw [henc]
        have hdec : decodeRequest (⟨"/loki/api/v1/query_range",
            [("start", [renderInt qs]), ("end", [renderInt qe]), ("query", [qq]),
              ("direction", [qd.str]), ("limit", [renderNat ql])] ++
              [("shards", qsh)] ++ [("step", [renderStepSeconds qst])]⟩ : HttpReq) =
          req? (parseInt (renderInt qs)) (fun s2 =>
          req? (parseInt (renderInt qe)) (fun e2 =>
          req? (parseDirection qd.str) (fun dir2 =>
          req? (parseNat (renderNat ql)) (fun lim2 =>
          req? (parseStepMs (renderStepSeconds qst)) (fun st2 =>
          .ok (.range ⟨qq, lim2, dir2, s2, e2, st2, "/loki/api/v1/query_range",
            qsh⟩)))))) := rfl
        rw [hdec, parseInt_renderInt, parseInt_renderInt, parseDirection_str,
          parseNat_renderNat, parseStepMs_render qst hstep]
        simp only [req?]
        rfl
  | instant q =>
    obtain ⟨qq, ql, qd, qt, qp, qsh⟩ := q
    cases hq : qsh.isEmpty with
    | true =>
      rw [List.isEmpty_iff.mp hq]
      have hdec : decodeRequest (encodeRequest
          (.instant ⟨qq, ql, qd, qt, qp, []⟩)) =
        req? (parseInt (renderInt qt)) (fun t2 =>
        req? (parseDirection qd.str) (fun dir2 =>
        req? (parseNat (renderNat ql)) (fun lim2 =>
        .ok (.instant ⟨qq, lim2, dir2, t2, "/loki/api/v1/query", []⟩)))) := rfl
      rw [hdec, parseInt_renderInt, parseDirection_str, parseNat_renderNat]
      simp only [req?]
      rfl
    | false =>
      have henc : encodeRequest (.instant ⟨qq, ql, qd, qt, qp, qsh⟩) =
          ⟨"/loki/api/v1/query",
            [("query", [qq]), ("direction", [qd.str]), ("limit", [renderNat ql]),
              ("time", [renderInt qt])] ++ [("shards", qsh)]⟩ := by
        simp only [encodeRequest, hq]
        rfl
      rw [henc]
      have hdec : decodeRequest (⟨"/loki/api/v1/query",
          [("query", [qq]), ("direction", [qd.str]), ("limit", [renderNat ql]),
            ("time", [renderInt qt])] ++ [("shards", qsh)]⟩ : HttpReq) =
        req? (parseInt (renderInt qt)) (fun t2 =>
        req? (parseDirection qd.str) (fun dir2 =>
        req? (parseNat (renderNat ql)) (fun lim2 =>
        .ok (.instant ⟨qq, lim2, dir2, t2, "/loki/api/v1/query", qsh⟩)))) := rfl
      rw [hdec, parseInt_renderInt, parseDirection_str, parseNat_renderNat]
      simp only [req?]
      rfl
  | series q =>
    obtain ⟨qm, qs, qe, qp, qsh⟩ := q
    cases hq : qsh.isEmpty with
    | true =>
      rw [List.isEmpty_iff.mp hq]
      have hdec : decodeRequest (encodeRequest (.series ⟨qm, qs, qe, qp, []⟩)) =
        req? (parseInt (renderInt qs)) (fun s2 =>
        req? (parseInt (renderInt qe)) (fun e2 =>
        .ok (.series ⟨qm, s2, e2, "/loki/api/v1/series", []⟩))) := rfl
      rw [hdec, parseInt_renderInt, parseInt_renderInt]
      simp only [req?]
      rfl
    | false =>
      have henc : encodeRequest (.series ⟨qm, qs, qe, qp, qsh⟩) =
          ⟨"/loki/api/v1/series",
            [("start", [renderInt qs]), ("end", [renderInt qe]),
              ("match[]", qm)] ++ [("shards", qsh)]⟩ := by
        simp only [encodeRequest, hq]
        rfl
      rw [henc]
      have hdec : decodeRequest (⟨"/loki/api/v1/series",
          [("start", [renderInt qs]), ("end", [renderInt qe]),
            ("match[]", qm)] ++ [("shards", qsh)]⟩ : HttpReq) =
        req? (parseInt (renderInt qs)) (fun s2 =>
        req? (parseInt (renderInt qe)) (fun e2 =>
        .ok (.series ⟨qm, s2, e2, "/loki/api/v1/series", qsh⟩))) := rfl
      rw [hdec, parseInt_renderInt, parseInt_renderInt]
      simp only [req?]
      rfl
  | labelNames q =>
    obtain ⟨qs, qe, qp⟩ := q
    have hdec : decodeRequest (encodeRequest (.labelNames ⟨qs, qe, qp⟩)) =
      req? (parseInt (renderInt qs)) (fun s2 =>
      req? (parseInt (renderInt qe)) (fun e2 =>
      .ok (.labelNames ⟨s2, e2, "/loki/api/v1/labels"⟩))) := rfl
    rw [hdec, parseInt_renderInt, parseInt_renderInt]
    simp only [req?]
    rfl

/-- C3 witness: a concrete range request with the canonical path, a
non-zero step and a shard round-trips to itself. -/
theorem c3_encode_decode_witness :
    decodeRequest (encodeRequest (Request.range ⟨"x", 5, Direction.FORWARD, 1000000,
      2000000, 15000, "/loki/api/v1/query_range", ["s1"]⟩)) =
    .ok (canonicalize (Request.range ⟨"x", 5, Direction.FORWARD, 1000000, 2000000,
      15000, "/loki/api/v1/query_range", ["s1"]⟩)) :=
  c3_encode_decode (Request.range ⟨"x", 5, Direction.FORWARD, 1000000, 2000000,
    15000, "/loki/api/v1/query_range", ["s1"]⟩) (by decide)

/-- C3 counterexample: a range request carrying the legacy
`/api/prom/query_range` path decodes back with the canonical
`/loki/api/v1/query_range` path — the round trip is not the identity on
the `path` field, contradicting the claim's field list. -/
theorem c3_encode_decode_counterexample :
    decodeRequest (encodeRequest (Request.range ⟨"x", 5, Direction.FORWARD, 1000000,
        2000000, 0, "/api/prom/query_range", []⟩)) =
      .ok (Request.range ⟨"x", 5, Direction.FORWARD, 1000000, 2000000, 0,
        "/loki/api/v1/query_range", []⟩) ∧
    Request.getPath (Request.range ⟨"x", 5, Direction.FORWARD, 1000000, 2000000, 0,
        "/loki/api/v1/query_range", []⟩) ≠
      Request.getPath (Request.range ⟨"x", 5, Direction.FORWARD, 1000000, 2000000, 0,
        "/api/prom/query_range", []⟩) :=
  ⟨rfl, by decide⟩

/-! ## Bounded round-tripper (limits.go, `limitedRoundTripper.RoundTrip`)

`RoundTrip` spawns exactly `parallelism` worker goroutines; a worker
loops between receiving a work item from the rendezvous channel and
dispatching it downstream (`rt.do`), and `rt.do` is called nowhere
else.  The observable concurrency structure is embedded as a labelled
transition system: the handler adapter may enqueue arbitrarily many
sub-requests (`emit`), an idle worker may pick one up (`handoff`, the
only transition that starts a downstream call), and a busy worker may
finish (`complete`).  A downstream call in flight is a busy worker. -/

/-- A worker is parked in `select` (idle) or inside `rt.do` (busy). -/
inductive WStatus
  | idle
  | busy
deriving DecidableEq, Repr

/-- Pool state: one status per spawned worker, plus the number of
sub-requests offered by handler adapters and not yet picked up. -/
structure PoolState where
  workers : List WStatus
  pending : Nat
deriving DecidableEq, Repr

/-- The transitions of one outer round-trip's worker pool. -/
inductive PoolStep : PoolState → PoolState → Prop
  | emit (ws : List WStatus) (p : Nat) : PoolStep ⟨ws, p⟩ ⟨ws, p + 1⟩
  | handoff (ws : List WStatus) (p : Nat) (i : Nat) (hi : i < ws.length)
      (hidle : ws.get ⟨i, hi⟩ = .idle) :
      PoolStep ⟨ws, p + 1⟩ ⟨ws.set i .busy, p⟩
  | complete (ws : List WStatus) (p : Nat) (i : Nat) (hi : i < ws.length)
      (hbusy : ws.get ⟨i, hi⟩ = .busy) :
      PoolStep ⟨ws, p⟩ ⟨ws.set i .idle, p⟩

/-- Downstream sub-requests currently in flight. -/
def inFlight (s : PoolState) : Nat := s.workers.count .busy

/-- The pool right after `RoundTrip` spawned its workers:
`parallelism` idle workers, nothing pending. -/
def initState (parallelism : Nat) : PoolState :=
  ⟨List.replicate parallelism .idle, 0⟩

/-- States one outer round-trip can reach. -/
abbrev PoolReachable (parallelism : Nat) (s : PoolState) : Prop :=
  Relation.ReflTransGen PoolStep (initState parallelism) s

theorem poolStep_length (s s2 : PoolState) (h : PoolStep s s2) :
    s2.workers.length = s.workers.length := by
  cases h with
  | emit ws p => rfl
  | handoff ws p i hi hidle => simp
  | complete ws p i hi hbusy => simp

/-- C9: in every state an outer round-trip can reach, no more than
`MaxQueryParallelism(tenant)` sub-requests are in flight downstream,
however many sub-requests the composed middleware emits. -/
theorem c9_parallelism_bound (parallelism : Nat) (s : PoolState)
    (h : PoolReachable parallelism s) : inFlight s ≤ parallelism := by
  have hlen : s.workers.length = parallelism := by
    induction h with
    | refl => simp [initState]
    | tail h1 h2 ih => rw [poolStep_length _ _ h2, ih]
  rw [inFlight, ← hlen]
  exact List.count_le_length _ _

/-- C9 witness: with `parallelism = 2` and three emitted sub-requests,
the state with both workers busy and one sub-request still pending is
reachable and respects the bound. -/
theorem c9_parallelism_bound_witness :
    inFlight ⟨[WStatus.busy, WStatus.busy], 1⟩ ≤ 2 := by
  have s1 : PoolStep (initState 2) ⟨[.idle, .idle], 1⟩ := PoolStep.emit [.idle, .idle] 0
  have s2 : PoolStep ⟨[.idle, .idle], 1⟩ ⟨[.idle, .idle], 2⟩ :=
    PoolStep.emit [.idle, .idle] 1
  have s3 : PoolStep ⟨[.idle, .idle], 2⟩ ⟨[.busy, .idle], 1⟩ :=
    PoolStep.handoff [.idle, .idle] 1 0 (by decide) rfl
  have s4 : PoolStep ⟨[.busy, .idle], 1⟩ ⟨[.busy, .idle], 2⟩ :=
    PoolStep.emit [.busy, .idle] 1
  have s5 : PoolStep ⟨[.busy, .idle], 2⟩ ⟨[.busy, .busy], 1⟩ :=
    PoolStep.handoff [.busy, .idle] 1 1 (by decide) rfl
  exact c9_parallelism_bound 2 ⟨[.busy, .busy], 1⟩
    (.tail (.tail (.tail (.tail (.tail .refl s1) s2) s3) s4) s5)

end LokiQR
